import Mathlib

/-
Verification development for the io-fault/integration build orchestration
code: the dependency-graph sequencer (src/images/graph.py), the construction
dispatcher and probe cache (src/factors/libconstruct.py), and variant
selection (src/factors/vectorcontext.py).

The Python sources are embedded shallowly: mutable state becomes explicit
functional state, dictionaries become total functions together with a domain
set, Python sets become `Finset`, raising an exception becomes `Except.error`
or `Option.none`.  External effects (pickling, the file system, subprocess
spawning, timestamps) are modelled by explicit data.
-/

namespace Fault

namespace Construct

/-! ## libconstruct.updated / libconstruct.rebuild (incremental rebuild filter)

A file as seen by `updated` has an existence bit and a modification time.
Timestamps are modelled as naturals; the expression `olm or lm` in the source
reuses the previously stored minimum when one has been stored, which is
modelled by `Option.getD` (Python truthiness of timestamp objects is not
modelled beyond `None`). -/

structure SFile where
  fexists : Bool
  mtime : Nat
deriving DecidableEq

/-- `libconstruct.rebuild`: unconditionally report the outputs as outdated. -/
def rebuild (_outputs _inputs : List SFile) : Bool := false

/-- The output scan of `updated`.  Returns `none` when some output is missing
(the source returns `False` there); otherwise the accumulated oldest
modification time `olm`, which stays `none` when `outputs` is empty. -/
def updatedOlm : List SFile → Option Nat → Option (Option Nat)
  | [], olm => some olm
  | o :: rest, olm =>
    if o.fexists then updatedOlm rest (some (min o.mtime (olm.getD o.mtime)))
    else none

/-- The input scan of `updated`: `not x.exists() or x.last_modified() > olm`.
Comparing an existing input's time against a `None` olm (possible only for an
empty `outputs` list) raises `TypeError` in Python, modelled as `.error ()`. -/
def updatedInputs : List SFile → Option Nat → Except Unit Bool
  | [], _ => .ok true
  | x :: rest, olm =>
    if x.fexists then
      match olm with
      | none => .error ()
      | some t => if t < x.mtime then .ok false else updatedInputs rest olm
    else .ok false

/-- `libconstruct.updated(outputs, inputs, requirement)`: whether the outputs
are up to date.  The comparison `olm < requirement` with `olm = None` raises
`TypeError`, modelled as `.error ()`. -/
def updated (outputs inputs : List SFile) (requirement : Option Nat) :
    Except Unit Bool :=
  match updatedOlm outputs none with
  | none => .ok false
  | some olm =>
    match requirement with
    | some req =>
      match olm with
      | none => .error ()
      | some t => if t < req then .ok false else updatedInputs inputs olm
    | none => updatedInputs inputs olm

/-- The oldest modification time of a list of outputs (meaningful when the
list is nonempty), folded exactly as the source accumulates `olm`. -/
def minOlm : List SFile → Nat
  | [] => 0
  | o :: rest => rest.foldl (fun b x => min x.mtime b) o.mtime

theorem updatedOlm_some (l : List SFile) (a : Nat) :
    updatedOlm l (some a) =
      if ∀ o ∈ l, o.fexists = true then
        some (some (l.foldl (fun b x => min x.mtime b) a))
      else none := by
  induction l generalizing a with
  | nil => simp [updatedOlm]
  | cons o rest ih =>
    by_cases ho : o.fexists = true
    · simp only [updatedOlm, ho, if_true, Option.getD_some, List.foldl_cons]
      rw [ih]
      simp [ho, min_comm]
    · simp [updatedOlm, ho]

theorem updatedInputs_some (l : List SFile) (t : Nat) :
    updatedInputs l (some t) = .ok true ↔
      ∀ x ∈ l, x.fexists = true ∧ x.mtime ≤ t := by
  induction l with
  | nil => simp [updatedInputs]
  | cons x rest ih =>
    by_cases hx : x.fexists = true
    · by_cases hm : t < x.mtime
      · simp only [updatedInputs, hx, if_true, if_pos hm]
        constructor
        · intro h
          simp at h
        · intro h
          have := (h x (List.mem_cons_self x rest)).2
          omega
      · simp only [updatedInputs, hx, if_true, if_neg hm, ih]
        constructor
        · intro h y hy
          rcases List.mem_cons.mp hy with rfl | hy
          · exact ⟨hx, by omega⟩
          · exact h y hy
        · intro h y hy
          exact h y (List.mem_cons_of_mem x hy)
    · have hx' : x.fexists = false := by simpa using hx
      simp only [updatedInputs, hx', Bool.false_eq_true, if_false]
      constructor
      · intro h
        simp at h
      · intro h
        exact absurd (h x (List.mem_cons_self x rest)).1 hx

/-- Claim C3 counterexample.  With an empty `outputs` list and a supplied
requirement, `updated` raises `TypeError` (comparing `None` with the
requirement) instead of returning `True`, even though every output and every
input (vacuously) satisfies the claim's conditions. -/
theorem updated_empty_outputs_raises :
    updated [] [] (some 0) = Except.error () ∧
      (∀ o ∈ ([] : List SFile), o.fexists = true) ∧
      (∀ x ∈ ([] : List SFile), x.fexists = true ∧ x.mtime ≤ 0) := by
  exact ⟨rfl, by simp, by simp⟩

/-- Claim C3 (amended): for a nonempty `outputs` list, `updated` returns
`True` exactly when every output exists, the oldest output's modification
time is at least the supplied requirement (when one is supplied), and every
input exists with a modification time not greater than the oldest output's;
`rebuild` returns `False` unconditionally. -/
theorem updated_spec (outputs inputs : List SFile) (req : Option Nat)
    (h : outputs ≠ []) :
    (updated outputs inputs req = .ok true ↔
      ((∀ o ∈ outputs, o.fexists = true) ∧
       (∀ r, req = some r → r ≤ minOlm outputs) ∧
       (∀ x ∈ inputs, x.fexists = true ∧ x.mtime ≤ minOlm outputs))) ∧
    rebuild outputs inputs = false := by
  refine ⟨?_, rfl⟩
  obtain ⟨o, rest, rfl⟩ : ∃ o rest, outputs = o :: rest := by
    cases outputs with
    | nil => exact absurd rfl h
    | cons o rest => exact ⟨o, rest, rfl⟩
  by_cases ho : o.fexists = true
  · have holm : updatedOlm (o :: rest) none =
        if ∀ x ∈ rest, x.fexists = true then some (some (minOlm (o :: rest)))
        else none := by
      simp only [updatedOlm, ho, if_true, Option.getD_none, min_self]
      rw [updatedOlm_some]
      rfl
    by_cases hrest : ∀ x ∈ rest, x.fexists = true
    · rw [if_pos hrest] at holm
      have hall : ∀ x ∈ o :: rest, x.fexists = true := by
        intro x hx
        rcases List.mem_cons.mp hx with hx | hx
        · exact hx ▸ ho
        · exact hrest x hx
      cases req with
      | none =>
        simp only [updated, holm, updatedInputs_some]
        constructor
        · intro hi
          exact ⟨hall, by simp, hi⟩
        · intro ⟨_, _, hi⟩
          exact hi
      | some r =>
        by_cases hreq : minOlm (o :: rest) < r
        · simp only [updated, holm, if_pos hreq]
          constructor
          · intro hfalse
            exact absurd hfalse (by simp)
          · intro ⟨_, hr, _⟩
            have := hr r rfl
            omega
        · simp only [updated, holm, if_neg hreq, updatedInputs_some]
          constructor
          · intro hi
            refine ⟨hall, ?_, hi⟩
            intro r' hr'
            injection hr' with hr'
            omega
          · intro ⟨_, _, hi⟩
            exact hi
    · rw [if_neg hrest] at holm
      simp only [updated, holm]
      constructor
      · intro hfalse
        cases req <;> simp_all
      · intro ⟨hall, _, _⟩
        exact absurd (fun x hx => hall x (List.mem_cons_of_mem o hx)) hrest
  · have holm : updatedOlm (o :: rest) none = none := by
      simp [updatedOlm, ho]
    simp only [updated, holm]
    constructor
    · intro hfalse
      exact absurd hfalse (by simp)
    · intro ⟨hall, _, _⟩
      exact absurd (hall o (List.mem_cons_self o rest)) ho

/-- Witness for `updated_spec` at a concrete input. -/
theorem updated_spec_witness :
    updated [⟨true, 5⟩] [⟨true, 3⟩] (some 2) = .ok true :=
  ((updated_spec [⟨true, 5⟩] [⟨true, 3⟩] (some 2) (by decide)).1).mpr (by decide)

/-! ## Probe cache (probe_cache / probe_record / probe_retrieve)

A probe's reports are a Python dict, modelled as an association list keyed by
`Option K` (the key may be `None`).  A cache file either holds a pickled
reports value or is empty (zero bytes, so unpickling raises `EOFError`); a
missing file makes `rf.open('rb')` raise `FileNotFoundError` outside the
`try` block, modelled as `.error ()`.  Pickling is modelled as storing the
value itself.  The file system maps paths to file contents. -/

/-- The identity of a probe that `probe_cache` consults: its cache directory
route and the identifier of its route. -/
structure Probe where
  cache_directory : List String
  route_identifier : String

/-- Reports recorded for a probe: an association list from (optional) keys to
report values.  The empty list is the falsy Python dict. -/
def Reports (K R : Type) : Type := List (Option K × R)

/-- Content of a probe cache file. -/
inductive PFile (K R : Type) where
  | empty : PFile K R
  | pickled : Reports K R → PFile K R

/-- The file system seen by the probe cache functions. -/
def FS (K R : Type) : Type := List String → Option (PFile K R)

/-- `libconstruct.probe_cache(probe, contexts)`: the route to the probe's
recorded report (`contexts` is accepted and unused, as in the source). -/
def probe_cache (probe : Probe) (_contexts : Option Unit) : List String :=
  probe.cache_directory ++ [probe.route_identifier ++ ".pc"]

/-- `libconstruct.probe_record(probe, reports, contexts)`: initialize the
cache file and pickle `reports` into it. -/
def probe_record (probe : Probe) (reports : Reports K R)
    (contexts : Option Unit) (fs : FS K R) : FS K R :=
  fun p => if p = probe_cache probe contexts then some (.pickled reports) else fs p

/-- `libconstruct.probe_retrieve(probe, contexts)`: load the pickled reports,
returning the empty dict when unpickling hits `EOFError` or the loaded value
is falsy; a missing cache file raises (`rf.open` is outside the `try`). -/
def probe_retrieve (probe : Probe) (contexts : Option Unit) (fs : FS K R) :
    Except Unit (Reports K R) :=
  match fs (probe_cache probe contexts) with
  | none => .error ()
  | some .empty => .ok []
  | some (.pickled r) => .ok (if r.isEmpty then [] else r)

/-- Claim C5: recording a probe's reports and retrieving them returns the
recorded mapping — both functions address the cache file computed by
`probe_cache`, so inspection results persist across runs. -/
theorem probe_roundtrip (probe : Probe) (reports : Reports K R)
    (contexts : Option Unit) (fs : FS K R) :
    probe_retrieve probe contexts (probe_record probe reports contexts fs) =
      .ok reports := by
  unfold probe_retrieve probe_record
  simp only [if_pos rfl]
  cases reports with
  | nil => rfl
  | cons a l => rfl

/-- Claim C10: when the probe's cache file exists but is empty or holds a
falsy pickled value, `probe_retrieve` returns the empty mapping rather than
raising. -/
theorem probe_retrieve_empty_cache (probe : Probe) (contexts : Option Unit)
    (fs : FS K R)
    (h : fs (probe_cache probe contexts) = some .empty ∨
         fs (probe_cache probe contexts) = some (.pickled [])) :
    probe_retrieve probe contexts fs = .ok [] := by
  unfold probe_retrieve
  rcases h with h | h
  · rw [h]
  · rw [h]
    rfl

/-- Witness for `probe_retrieve_empty_cache` on a one-file file system whose
cache file is empty. -/
theorem probe_retrieve_empty_cache_witness :
    probe_retrieve (K := Unit) (R := Unit) ⟨[], "p"⟩ none
      (fun p => if p = ["p.pc"] then some .empty else none) = .ok [] :=
  probe_retrieve_empty_cache ⟨[], "p"⟩ none _ (Or.inl (by rfl))

/-! ## Construction.probe_execute (probe reuse)

`probe_execute` computes the probe's key (via the optional `key` attribute of
the probe's module), retrieves the cached reports and either merely advances
the probe's progress (cache hit) or dispatches a thread running the module's
`deploy` (cache miss).  The outcome is the new progress value together with
whether a deployment thread was dispatched. -/

/-- A probe module as `probe_execute` sees it: the optional `key` callable
(`getattr(module, 'key', None)`). -/
structure PModule (K Ctx Dep : Type) where
  key : Option (Ctx → Dep → K)

/-- A probe factor: its module and its cache identity. -/
structure PFactor (K Ctx Dep : Type) where
  module : PModule K Ctx Dep
  probe : Probe

/-- The key under which the probe's report is cached for dependency `dep`. -/
def probeKey (factor : PFactor K Ctx Dep) (contexts : Ctx) (dep : Dep) :
    Option K :=
  match factor.module.key with
  | some kf => some (kf contexts dep)
  | none => none

/-- `Construction.probe_execute` outcome: the updated `progress[factor]` and
whether a deployment thread was dispatched. -/
def probe_execute [DecidableEq K] (factor : PFactor K Ctx Dep) (contexts : Ctx)
    (dep : Dep) (progress : Int) (ctxArg : Option Unit) (fs : FS K R) :
    Except Unit (Int × Bool) :=
  let key := probeKey factor contexts dep
  match probe_retrieve factor.probe ctxArg fs with
  | .error e => .error e
  | .ok reports =>
    if key ∈ reports.map Prod.fst then .ok (progress + 1, false)
    else .ok (progress, true)

/-- Claim C6: `probe_execute` dispatches the deployment thread only when the
probe's key is absent from the cached reports, and a cached key advances the
progress counter without re-running the inspection. -/
theorem probe_execute_reuse [DecidableEq K] (factor : PFactor K Ctx Dep)
    (contexts : Ctx) (dep : Dep) (progress : Int) (ctxArg : Option Unit)
    (fs : FS K R) :
    (∀ reports, probe_retrieve factor.probe ctxArg fs = .ok reports →
      ((probe_execute factor contexts dep progress ctxArg fs =
          .ok (progress, true) ↔
        probeKey factor contexts dep ∉ reports.map Prod.fst) ∧
       (probeKey factor contexts dep ∈ reports.map Prod.fst →
        probe_execute factor contexts dep progress ctxArg fs =
          .ok (progress + 1, false)))) ∧
    (∀ e, probe_retrieve factor.probe ctxArg fs = .error e →
      probe_execute factor contexts dep progress ctxArg fs = .error e) := by
  constructor
  · intro reports hr
    unfold probe_execute
    rw [hr]
    by_cases hk : probeKey factor contexts dep ∈ reports.map Prod.fst
    · simp only [if_pos hk]
      constructor
      · constructor
        · intro h
          injection h with h
          injection h with h1 _
          omega
        · intro h
          exact absurd hk h
      · intro _
        trivial
    · simp only [if_neg hk]
      exact ⟨⟨fun _ => hk, fun _ => by trivial⟩, fun h => absurd h hk⟩
  · intro e he
    unfold probe_execute
    rw [he]

/-- Witness for `probe_execute_reuse`: a cache hit on the `none` key advances
progress from 0 to 1 without deploying. -/
theorem probe_execute_reuse_witness :
    probe_execute (R := Nat)
      (⟨⟨none⟩, ⟨[], "p"⟩⟩ : PFactor Nat Unit Unit) () () 0 none
      (fun p => if p = ["p.pc"] then some (.pickled [(none, 7)]) else none) =
      .ok (1, false) :=
  ((probe_execute_reuse ⟨⟨none⟩, ⟨[], "p"⟩⟩ () () 0 none _).1
      [(none, 7)] (by rfl)).2 (by decide)

/-! ## Subprocess pool (Construction.drain_process_queue / process_exit)

The scheduler state relevant to the pool bound: the count of live
subprocesses, the processor limit fixed at construction, and the queue of
commands waiting for a slot.  `dispatch` appends commands to the queue,
`drain_process_queue` spawns queued commands into free slots, and each
subprocess exit decrements the count.  A subprocess can only exit while it is
live, so exit events are valid only when the count is positive. -/

structure PoolState (C : Type) where
  process_count : Nat
  process_limit : Nat
  command_queue : List C

/-- `Construction.__init__(..., processors=4)`: no live subprocess, an empty
command queue, and the processor limit. -/
def poolInit (C : Type) (processors : Nat := 4) : PoolState C :=
  { process_count := 0, process_limit := processors, command_queue := [] }

/-- `Construction.drain_process_queue`: spawn at most
`min(process_limit - process_count, len(command_queue))` queued commands,
incrementing `process_count` once per spawned command. -/
def drain_process_queue (st : PoolState C) : PoolState C :=
  let nitems := st.command_queue.length
  if 0 < nitems then
    let pcount := min (st.process_limit - st.process_count) nitems
    { st with
      command_queue := st.command_queue.drop pcount,
      process_count := st.process_count + pcount }
  else st

/-- Events that touch the pool state: a command appended by `dispatch`, a
`continuation`-driven drain, and a subprocess exit. -/
inductive PoolEvent (C : Type) where
  | enqueue : C → PoolEvent C
  | drain : PoolEvent C
  | exit_ : PoolEvent C

def poolStep (st : PoolState C) : PoolEvent C → PoolState C
  | .enqueue c => { st with command_queue := st.command_queue ++ [c] }
  | .drain => drain_process_queue st
  | .exit_ => { st with process_count := st.process_count - 1 }

/-- An event list is valid when every exit event fires while a subprocess is
live (`process_exit` runs once per spawned subprocess). -/
def poolValid (st : PoolState C) : List (PoolEvent C) → Bool
  | [] => true
  | e :: es =>
    (match e with
     | .exit_ => decide (0 < st.process_count)
     | _ => true) && poolValid (poolStep st e) es

theorem pool_invariant_aux (evs : List (PoolEvent C)) :
    ∀ st : PoolState C, st.process_count ≤ st.process_limit →
      poolValid st evs = true →
      (evs.foldl poolStep st).process_count ≤ (evs.foldl poolStep st).process_limit ∧
      (evs.foldl poolStep st).process_limit = st.process_limit := by
  induction evs with
  | nil => exact fun st h _ => ⟨h, rfl⟩
  | cons e es ih =>
    intro st h hv
    simp only [poolValid, Bool.and_eq_true] at hv
    have hstep : (poolStep st e).process_count ≤ (poolStep st e).process_limit ∧
        (poolStep st e).process_limit = st.process_limit := by
      cases e with
      | enqueue c => exact ⟨h, rfl⟩
      | drain =>
        simp only [poolStep, drain_process_queue]
        by_cases hq : 0 < st.command_queue.length
        · simp only [if_pos hq]
          constructor
          · have : min (st.process_limit - st.process_count)
                st.command_queue.length ≤ st.process_limit - st.process_count :=
              Nat.min_le_left _ _
            omega
          · trivial
        · simp only [if_neg hq]
          exact ⟨h, by trivial⟩
      | exit_ =>
        simp only [poolStep]
        exact ⟨by omega, by trivial⟩
    have := ih (poolStep st e) hstep.1 hv.2
    exact ⟨this.1, this.2.trans hstep.2⟩

/-- Claim C4: along every valid event sequence from a freshly constructed
pool, the count of concurrently dispatched subprocesses never exceeds the
processor limit, which stays equal to the `processors` argument. -/
theorem pool_bound (C : Type) (processors : Nat) (evs : List (PoolEvent C))
    (hv : poolValid (poolInit C processors) evs = true) :
    (evs.foldl poolStep (poolInit C processors)).process_count ≤
      (evs.foldl poolStep (poolInit C processors)).process_limit ∧
    (evs.foldl poolStep (poolInit C processors)).process_limit = processors :=
  pool_invariant_aux evs (poolInit C processors) (Nat.zero_le _) hv

/-- Witness for `pool_bound`: enqueue three commands into a two-slot pool,
drain, let one exit, drain again. -/
theorem pool_bound_witness :
    (([PoolEvent.enqueue 0, .enqueue 1, .enqueue 2, .drain, .exit_, .drain] :
        List (PoolEvent Nat)).foldl poolStep (poolInit Nat 2)).process_count ≤
      (([PoolEvent.enqueue 0, .enqueue 1, .enqueue 2, .drain, .exit_, .drain] :
        List (PoolEvent Nat)).foldl poolStep (poolInit Nat 2)).process_limit :=
  (pool_bound Nat 2 _ (by decide)).1

end Construct

namespace VectorContext

/-! ## vectorcontext.Context.cc_variants / Mechanism.variants (C7)

`cc_variants` walks the sections configured for the given semantics, reads
the `(system, architecture)` product from each section's `variants` factor
and pairs every listed intention with every such pair, substituting the
configured intercept section for the intention when one exists.  The reading
of the variants factor (`_variants`, via `fault.vector.formulation`, an
external library) is modelled as the map `variantsOf`; sections are an
abstract type `S`. -/

/-- `lsf.types.Variants(system, architecture, form)`: the third positional
argument is the form, which `cc_variants` fills with the intention. -/
structure Variants where
  system : String
  architecture : String
  form : String
deriving DecidableEq

/-- The parts of a `vectorcontext.Context` that `cc_variants` consults:
`self._idefault` (semantics to configured sections), `self.intercepts`
(intention to intercept section, a dict modelled as an association list) and
the `(system, architecture)` product read from a section's variants factor. -/
structure Ctx (S : Type) where
  idefault : String → List S
  intercepts : List (String × S)
  variantsOf : S → List (String × String)

/-- `self.intercepts.get(i, section)`. -/
def interceptGet (ic : List (String × S)) (i : String) (default : S) : S :=
  match ic.find? (fun p => p.1 = i) with
  | some p => p.2
  | none => default

/-- `Context.cc_variants(semantics, intentions)`: for each configured
section, the list comprehension over `itertools.product(intentions,
self._variants(vfactor))`. -/
def cc_variants (ctx : Ctx S) (semantics : String) (intentions : List String) :
    List (S × Variants) :=
  (ctx.idefault semantics).flatMap fun sect =>
    (intentions.flatMap fun i => (ctx.variantsOf sect).map fun x => (i, x)).map
      fun p => (interceptGet ctx.intercepts p.1 sect, ⟨p.2.1, p.2.2, p.1⟩)

/-- A `vectorcontext.Mechanism`: a construction context section set paired
with the factor semantics it serves. -/
structure Mechanism (S : Type) where
  context : Ctx S
  semantics : String

/-- `Mechanism.variants(intentions)`. -/
def Mechanism.variants (m : Mechanism S) (intentions : List String) :
    List (S × Variants) :=
  cc_variants m.context m.semantics intentions

theorem cc_variants_length (ctx : Ctx S) (semantics : String)
    (intentions : List String) :
    (cc_variants ctx semantics intentions).length =
      ((ctx.idefault semantics).map
        (fun sec => intentions.length * (ctx.variantsOf sec).length)).sum := by
  unfold cc_variants
  rw [List.length_flatMap]
  congr 1
  apply List.map_congr_left
  intro sec _
  simp only [Function.comp_apply, List.length_map, List.length_flatMap]
  induction intentions with
  | nil => simp
  | cons i is ihi =>
    simp only [List.map_cons, List.sum_cons, Function.comp_apply,
      List.length_map, List.length_cons, ihi]
    ring

/-- Claim C7: `Mechanism.variants(intentions)` yields exactly one
`(section, variants)` pair per combination of a configured section, a listed
intention and a `(system, architecture)` pair read from the section's
variants factor; the variants record carries the intention as its form, and
the section is replaced by the configured intercept for that intention when
one exists. -/
theorem mechanism_variants_spec (m : Mechanism S) (intentions : List String) :
    ((m.variants intentions).length =
      ((m.context.idefault m.semantics).map
        (fun sec => intentions.length * (m.context.variantsOf sec).length)).sum) ∧
    (∀ sec ∈ m.context.idefault m.semantics, ∀ i ∈ intentions,
      ∀ sa ∈ m.context.variantsOf sec,
        (interceptGet m.context.intercepts i sec,
          Variants.mk sa.1 sa.2 i) ∈ m.variants intentions) ∧
    (∀ p ∈ m.variants intentions,
      ∃ sec ∈ m.context.idefault m.semantics, ∃ i ∈ intentions,
        ∃ sa ∈ m.context.variantsOf sec,
          p = (interceptGet m.context.intercepts i sec,
            Variants.mk sa.1 sa.2 i)) := by
  refine ⟨cc_variants_length _ _ _, ?_, ?_⟩
  · intro sec hsec i hi sa hsa
    unfold Mechanism.variants cc_variants
    rw [List.mem_flatMap]
    refine ⟨sec, hsec, ?_⟩
    rw [List.mem_map]
    refine ⟨(i, sa), ?_, by rfl⟩
    rw [List.mem_flatMap]
    exact ⟨i, hi, List.mem_map.mpr ⟨sa, hsa, rfl⟩⟩
  · intro p hp
    unfold Mechanism.variants cc_variants at hp
    rw [List.mem_flatMap] at hp
    obtain ⟨sec, hsec, hp⟩ := hp
    rw [List.mem_map] at hp
    obtain ⟨q, hq, rfl⟩ := hp
    rw [List.mem_flatMap] at hq
    obtain ⟨i, hi, hq⟩ := hq
    rw [List.mem_map] at hq
    obtain ⟨sa, hsa, rfl⟩ := hq
    exact ⟨sec, hsec, i, hi, sa, hsa, rfl⟩

/-- Witness for `mechanism_variants_spec`: one section (numbered 0), an
intercept for intention "debug" (section 1), two intentions and one
system-architecture pair. -/
theorem mechanism_variants_spec_witness :
    (1, Variants.mk "linux" "x86" "debug") ∈
      (Mechanism.mk (S := Nat)
        ⟨fun _ => [0], [("debug", 1)], fun _ => [("linux", "x86")]⟩
        "system").variants ["optimal", "debug"] :=
  (mechanism_variants_spec
      (Mechanism.mk (S := Nat)
        ⟨fun _ => [0], [("debug", 1)], fun _ => [("linux", "x86")]⟩
        "system") ["optimal", "debug"]).2.1
    0 (by decide) "debug" (by decide) ("linux", "x86") (by decide)

end VectorContext

namespace Dispatch

/-! ## Construction.dispatch / collect / continuation (C9)

The dispatcher state: `progress` (a `collections.Counter`, so a total
function defaulting to 0), `tracking` (factor to its pending action sets),
the command queue, the activity set and the continuation flag.  `dispatch`
asserts `progress[factor] == -1`, resets it to 0 and walks the first action
set; failing the assertion (or indexing an empty tracking list) is modelled
as `none`.  Instruction side effects beyond the queue and the progress
counter (directory creation, linking, calls, probe deployment) are external;
a probe instruction carries its cache-hit outcome. -/

/-- One instruction of an action set, as `dispatch` discriminates them. -/
inductive Instr (C : Type) where
  | execute : C → Instr C
  | executeRedirection : C → Instr C
  | directory : Instr C
  | link : Instr C
  | call : Instr C
  | probe : Bool → Instr C

structure DState (F C : Type) where
  progress : F → Int
  tracking : F → List (List (Instr C))
  command_queue : List (F × Instr C)
  activity : List F
  continued : Bool

variable {F C : Type} [DecidableEq F]

/-- The effect of one instruction inside `dispatch`'s loop: execute
instructions are enqueued, directory/link/call instructions complete
immediately and advance the progress counter, a probe instruction advances it
only on a cache hit (`probe_execute`). -/
def applyInstr (f : F) (st : DState F C) : Instr C → DState F C
  | .execute c => { st with command_queue := st.command_queue ++ [(f, .execute c)] }
  | .executeRedirection c =>
    { st with command_queue := st.command_queue ++ [(f, .executeRedirection c)] }
  | .directory => { st with progress := Function.update st.progress f (st.progress f + 1) }
  | .link => { st with progress := Function.update st.progress f (st.progress f + 1) }
  | .call => { st with progress := Function.update st.progress f (st.progress f + 1) }
  | .probe cached =>
    if cached then { st with progress := Function.update st.progress f (st.progress f + 1) }
    else st

/-- How much one instruction advances `progress[f]`. -/
def instrBump : Instr C → Int
  | .directory => 1
  | .link => 1
  | .call => 1
  | .probe cached => if cached then 1 else 0
  | _ => 0

/-- `Construction.dispatch(factor)`: assert `progress[factor] == -1`, reset
it to 0, process the first action set, and mark activity when the set
completed synchronously. -/
def dispatch (f : F) (st : DState F C) : Option (DState F C) :=
  if st.progress f = -1 then
    match st.tracking f with
    | [] => none
    | t0 :: _ =>
      let st1 := t0.foldl (applyInstr f)
        { st with progress := Function.update st.progress f 0 }
      some (if (t0.length : Int) ≤ st1.progress f then
          { st1 with activity := f :: st1.activity, continued := true }
        else st1)
  else none

/-- The tail of `Construction.collect`: once the action sets for the factor
have been gathered into `tracking[factor]`, either mark `progress[factor]`
as `-1` and dispatch, or record the factor as immediately active. -/
def collect (f : F) (newTracks : List (List (Instr C))) (st : DState F C) :
    Option (DState F C) :=
  let tracks := st.tracking f ++ newTracks
  let st1 := { st with tracking := Function.update st.tracking f tracks }
  if tracks.isEmpty then
    some { st1 with activity := f :: st1.activity, continued := true }
  else
    dispatch f { st1 with progress := Function.update st1.progress f (-1) }

/-- One factor's step of `Construction.continuation`: a finished action set
is popped, `progress` is reset to `-1`, and the next set is dispatched (or
the factor completes).  The returned flag records completion. -/
def continuationStep (x : F) (st : DState F C) :
    Option (DState F C × Bool) :=
  match st.tracking x with
  | [] => some (st, true)
  | t0 :: rest =>
    if (t0.length : Int) ≤ st.progress x then
      let st1 := { st with
        tracking := Function.update st.tracking x rest,
        progress := Function.update st.progress x (-1) }
      if rest.isEmpty then some (st1, true)
      else (dispatch x st1).map (fun s => (s, false))
    else some (st, false)

theorem foldl_applyInstr_progress (f : F) (t : List (Instr C)) :
    ∀ st : DState F C,
      (t.foldl (applyInstr f) st).progress f =
        st.progress f + (t.map instrBump).sum := by
  induction t with
  | nil =>
    intro st
    simp
  | cons i rest ih =>
    intro st
    rw [List.foldl_cons, ih, List.map_cons, List.sum_cons]
    have : (applyInstr f st i).progress f = st.progress f + instrBump i := by
      cases i with
      | execute c => simp [applyInstr, instrBump]
      | executeRedirection c => simp [applyInstr, instrBump]
      | directory => simp [applyInstr, instrBump]
      | link => simp [applyInstr, instrBump]
      | call => simp [applyInstr, instrBump]
      | probe cached =>
        cases cached <;> simp [applyInstr, instrBump]
    rw [this]
    ring

/-- Claim C9: the assertion at the head of `dispatch` holds at both of its
call sites — `collect` marks `progress[factor] = -1` right before its call
and never hits the assertion, and `continuation` resets `progress[x]` to
`-1` after popping a finished action set, so its dispatch succeeds as well;
`dispatch` itself succeeds exactly on states with `progress[factor] = -1`
and pending work, and resets the counter to 0 before processing the first
action set (leaving it at the sum of the set's synchronous increments). -/
theorem dispatch_assertion (st : DState F C) (f : F)
    (newTracks : List (List (Instr C))) :
    (collect f newTracks st).isSome ∧
    (∀ x : F, (continuationStep x st).isSome) ∧
    ((dispatch f st).isSome ↔ (st.progress f = -1 ∧ st.tracking f ≠ [])) ∧
    (∀ t0 rest st', st.progress f = -1 → st.tracking f = t0 :: rest →
      dispatch f st = some st' → st'.progress f = (t0.map instrBump).sum) := by
  have hdis : ∀ (g : F) (s : DState F C), s.progress g = -1 → ∀ t0 rest,
      s.tracking g = t0 :: rest → (dispatch g s).isSome := by
    intro g s hs t0 rest ht
    unfold dispatch
    rw [if_pos hs, ht]
    simp
  refine ⟨?_, ?_, ?_, ?_⟩
  · cases ht : st.tracking f ++ newTracks with
    | nil =>
      unfold collect
      rw [ht]
      simp
    | cons t0 rest =>
      have hco : collect f newTracks st =
          dispatch f { st with
            tracking := Function.update st.tracking f (t0 :: rest),
            progress := Function.update st.progress f (-1) } := by
        unfold collect
        rw [ht]
        rfl
      rw [hco]
      exact hdis f _ (by simp) t0 rest (by simp)
  · intro x
    cases ht : st.tracking x with
    | nil =>
      have hcs : continuationStep x st = some (st, true) := by
        unfold continuationStep
        rw [ht]
      rw [hcs]
      simp
    | cons t0 rest =>
      have hcs : continuationStep x st =
          if (t0.length : Int) ≤ st.progress x then
            (if rest.isEmpty then
              some ({ st with
                tracking := Function.update st.tracking x rest,
                progress := Function.update st.progress x (-1) }, true)
             else (dispatch x { st with
                tracking := Function.update st.tracking x rest,
                progress := Function.update st.progress x (-1) }).map
              (fun s => (s, false)))
          else some (st, false) := by
        unfold continuationStep
        rw [ht]
      rw [hcs]
      by_cases hp : (t0.length : Int) ≤ st.progress x
      · rw [if_pos hp]
        cases hrest : rest with
        | nil => simp
        | cons t1 rest' =>
          simp only [List.isEmpty_cons, Bool.false_eq_true, if_false,
            Option.isSome_map']
          exact hdis x
            { st with
              tracking := Function.update st.tracking x (t1 :: rest'),
              progress := Function.update st.progress x (-1) }
            (Function.update_same x (-1) st.progress) t1 rest'
            (Function.update_same x (t1 :: rest') st.tracking)
      · rw [if_neg hp]
        simp
  · constructor
    · intro h
      by_cases hp : st.progress f = -1
      · refine ⟨hp, ?_⟩
        cases ht : st.tracking f with
        | nil =>
          unfold dispatch at h
          rw [if_pos hp, ht] at h
          simp at h
        | cons t0 rest => simp
      · unfold dispatch at h
        rw [if_neg hp] at h
        simp at h
    · intro ⟨hp, ht⟩
      cases htr : st.tracking f with
      | nil => exact absurd htr ht
      | cons t0 rest => exact hdis f st hp t0 rest htr
  · intro t0 rest st' hp ht hd
    unfold dispatch at hd
    rw [if_pos hp, ht] at hd
    simp only [Option.some.injEq] at hd
    subst hd
    by_cases hle : (t0.length : Int) ≤
        (t0.foldl (applyInstr f)
          { st with progress := Function.update st.progress f 0 }).progress f
    · rw [if_pos hle]
      show (t0.foldl (applyInstr f)
        { st with progress := Function.update st.progress f 0 }).progress f =
          (t0.map instrBump).sum
      rw [foldl_applyInstr_progress]
      simp
    · rw [if_neg hle]
      rw [foldl_applyInstr_progress]
      simp

/-- Witness for `dispatch_assertion` at a concrete state: dispatching a
one-instruction action set from a `-1` progress mark leaves the counter at
the set's single synchronous increment. -/
theorem dispatch_assertion_witness :
    ((dispatch (F := Nat) (C := Nat) 0
        ⟨fun _ => -1, fun _ => [[Instr.directory]], [], [], false⟩).map
      (fun s => s.progress 0)) = some 1 := by
  cases hd : dispatch (F := Nat) (C := Nat) 0
      ⟨fun _ => -1, fun _ => [[Instr.directory]], [], [], false⟩ with
  | none =>
    have h1 := ((dispatch_assertion (F := Nat) (C := Nat)
      ⟨fun _ => -1, fun _ => [[Instr.directory]], [], [], false⟩ 0
      []).2.2.1).mpr ⟨rfl, by simp⟩
    rw [hd] at h1
    simp at h1
  | some st' =>
    have h1 := (dispatch_assertion (F := Nat) (C := Nat)
      ⟨fun _ => -1, fun _ => [[Instr.directory]], [], [], false⟩ 0
      []).2.2.2 [Instr.directory] [] st' rfl rfl hd
    simp [h1, instrBump]

end Dispatch

namespace Graph

/-! ## images/graph.py: traverse and sequence

`traverse(directory, working, tree, inverse, node)` inverts the dependency
graph reachable from `node`; `sequence(directory, nodes)` is the generator
that yields batches of ready factors and receives completed ones.  The
mutable arguments `working`/`tree`/`inverse` become a state record; the
`tree` dict is a total function together with its key set `treeDom`;
`inverse` is a `defaultdict(set)`, hence total with default `∅`.

The directory function returns an iterable of dependencies, modelled as a
`List`; `deps = set(directory(node))` is its `toFinset`, and iteration over
that set walks the deduplicated list (a Python set's iteration order is
unspecified).

Python's recursion has no fuel, so `traverseFuel` takes an explicit
recursion-depth budget and returns `none` when it is exhausted; the
termination theorem shows the budget `Fintype.card V + 1` always suffices
(a node with dependencies is recorded in the tree before its dependencies
are recursed into, a node already present is not traversed again, and nodes
without dependencies do not recurse), which is the sense in which the
source terminates on every finite graph, cyclic ones included. -/

variable {V : Type} [DecidableEq V] [Fintype V]

structure GState (V : Type) where
  working : Finset V
  treeDom : Finset V
  tree : V → Finset V
  inverse : V → List V

def GState.empty (V : Type) : GState V :=
  ⟨∅, ∅, fun _ => ∅, fun _ => []⟩

/-- `deps = set(directory(node))`. -/
def dirset (dir : V → List V) (f : V) : Finset V := (dir f).toFinset

/-- `graph.traverse` with an explicit recursion-depth budget.  The loop
`for x in deps: inverse[x].add(node); traverse(..., x)` is the `foldlM`. -/
def traverseFuel (dir : V → List V) : Nat → GState V → V → Option (GState V)
  | 0, _, _ => none
  | n + 1, st, node =>
    if dirset dir node = ∅ then
      some { st with working := insert node st.working }
    else if node ∈ st.treeDom then
      some st
    else
      ((dir node).dedup).foldlM
        (fun acc x =>
          traverseFuel dir n
            { acc with
              inverse := Function.update acc.inverse x
                (List.insert node (acc.inverse x)) }
            x)
        { st with
          treeDom := insert node st.treeDom,
          tree := Function.update st.tree node (dirset dir node) }

/-- The dependency loop of `traverse`, with `parent` the node whose
dependencies are being walked. -/
def traverseListFuel (dir : V → List V) (n : Nat) (parent : V)
    (st : GState V) (ns : List V) : Option (GState V) :=
  ns.foldlM
    (fun acc x =>
      traverseFuel dir n
        { acc with
          inverse := Function.update acc.inverse x
            (List.insert parent (acc.inverse x)) }
        x)
    st

theorem traverseFuel_succ (dir : V → List V) (n : Nat) (st : GState V)
    (node : V) :
    traverseFuel dir (n + 1) st node =
      if dirset dir node = ∅ then
        some { st with working := insert node st.working }
      else if node ∈ st.treeDom then
        some st
      else
        traverseListFuel dir n node
          { st with
            treeDom := insert node st.treeDom,
            tree := Function.update st.tree node (dirset dir node) }
          (dir node).dedup := rfl

theorem traverseListFuel_nil (dir : V → List V) (n : Nat) (parent : V)
    (st : GState V) :
    traverseListFuel dir n parent st [] = some st := rfl

theorem traverseListFuel_cons (dir : V → List V) (n : Nat) (parent : V)
    (st : GState V) (x : V) (xs : List V) :
    traverseListFuel dir n parent st (x :: xs) =
      (traverseFuel dir n
        { st with
          inverse := Function.update st.inverse x
            (List.insert parent (st.inverse x)) }
        x).bind
        (fun st1 => traverseListFuel dir n parent st1 xs) := rfl

/-- The set of nodes that have been taken care of: recorded in the tree or
added to the working set. -/
def handled (st : GState V) : Finset V := st.treeDom ∪ st.working

/-- The dependency edge relation: `rel dir a b` when `a` is a direct
dependency of `b`. -/
def rel (dir : V → List V) (a b : V) : Prop := a ∈ dir b

/-- How one (partial) run of `traverse` extends the state. -/
structure TravExt (dir : V → List V) (st st' : GState V) : Prop where
  dom : st.treeDom ⊆ st'.treeDom
  wrk : st.working ⊆ st'.working
  tOld : ∀ f ∈ st.treeDom, st'.tree f = st.tree f
  tNew : ∀ f, f ∈ st'.treeDom → f ∉ st.treeDom →
    st'.tree f = dirset dir f ∧ dirset dir f ≠ ∅ ∧ ∀ z ∈ dir f, z ∈ handled st'
  wNew : ∀ f, f ∈ st'.working → f ∉ st.working → dirset dir f = ∅

theorem TravExt.handled_mono {dir : V → List V} {st st' : GState V}
    (h : TravExt dir st st') : handled st ⊆ handled st' := by
  intro f hf
  rcases Finset.mem_union.mp hf with hf | hf
  · exact Finset.mem_union_left _ (h.dom hf)
  · exact Finset.mem_union_right _ (h.wrk hf)

theorem TravExt.rfl' (dir : V → List V) (st : GState V) : TravExt dir st st where
  dom := Finset.Subset.refl _
  wrk := Finset.Subset.refl _
  tOld := fun _ _ => rfl
  tNew := fun _ hf hnf => absurd hf hnf
  wNew := fun _ hf hnf => absurd hf hnf

theorem TravExt.trans {dir : V → List V} {st st' st'' : GState V}
    (h1 : TravExt dir st st') (h2 : TravExt dir st' st'') :
    TravExt dir st st'' where
  dom := h1.dom.trans h2.dom
  wrk := h1.wrk.trans h2.wrk
  tOld := fun f hf => (h2.tOld f (h1.dom hf)).trans (h1.tOld f hf)
  tNew := by
    intro f hf hnf
    by_cases hmid : f ∈ st'.treeDom
    · obtain ⟨he, hne, hh⟩ := h1.tNew f hmid hnf
      exact ⟨(h2.tOld f hmid).trans he, hne,
        fun z hz => h2.handled_mono (hh z hz)⟩
    · exact h2.tNew f hf hmid
  wNew := by
    intro f hf hnf
    by_cases hmid : f ∈ st'.working
    · exact h1.wNew f hmid hnf
    · exact h2.wNew f hf hmid

/-- The property established for `traverseFuel` at budget `n`: on states with
fewer than `n` unvisited nodes the call succeeds, extends the state, handles
the node, grows `inverse` exactly by the newly recorded tree entries, and
only touches nodes reachable from `node`. -/
def TravP (dir : V → List V) (n : Nat) : Prop :=
  ∀ st : GState V, ∀ node : V, (Finset.univ \ st.treeDom).card < n →
    ∃ st', traverseFuel dir n st node = some st' ∧ TravExt dir st st' ∧
      node ∈ handled st' ∧
      (∀ z, (st'.inverse z).toFinset =
        (st.inverse z).toFinset ∪
          (st'.treeDom \ st.treeDom).filter (fun f => z ∈ dir f)) ∧
      (∀ f ∈ handled st',
        f ∈ handled st ∨ Relation.ReflTransGen (rel dir) f node)

/-- Same for the dependency loop. -/
def TravLP (dir : V → List V) (n : Nat) : Prop :=
  ∀ st : GState V, ∀ parent : V, ∀ ns : List V,
    (Finset.univ \ st.treeDom).card < n →
    ∃ st', traverseListFuel dir n parent st ns = some st' ∧ TravExt dir st st' ∧
      (∀ x ∈ ns, x ∈ handled st') ∧
      (∀ z, (st'.inverse z).toFinset =
        ((st.inverse z).toFinset ∪ (if z ∈ ns then {parent} else ∅)) ∪
          (st'.treeDom \ st.treeDom).filter (fun f => z ∈ dir f)) ∧
      (∀ f ∈ handled st',
        f ∈ handled st ∨ ∃ x ∈ ns, Relation.ReflTransGen (rel dir) f x)

theorem toFinset_list_insert (l : List V) (a : V) :
    (l.insert a).toFinset = insert a l.toFinset := by
  ext w
  simp [List.mem_insert_iff]

theorem sdiff_filter_union {A B C : Finset V} (hAB : A ⊆ B) (hBC : B ⊆ C)
    (p : V → Prop) [DecidablePred p] :
    (B \ A).filter p ∪ (C \ B).filter p = (C \ A).filter p := by
  ext w
  simp only [Finset.mem_union, Finset.mem_filter, Finset.mem_sdiff]
  constructor
  · rintro (⟨⟨hB, hnA⟩, hp⟩ | ⟨⟨hC, hnB⟩, hp⟩)
    · exact ⟨⟨hBC hB, hnA⟩, hp⟩
    · exact ⟨⟨hC, fun hA => hnB (hAB hA)⟩, hp⟩
  · rintro ⟨⟨hC, hnA⟩, hp⟩
    by_cases hB : w ∈ B
    · exact Or.inl ⟨⟨hB, hnA⟩, hp⟩
    · exact Or.inr ⟨⟨hC, hB⟩, hp⟩

theorem travLP_of_travP (dir : V → List V) (n : Nat) (hP : TravP dir n) :
    TravLP dir n := by
  intro st parent ns
  induction ns generalizing st with
  | nil =>
    intro hcard
    refine ⟨st, traverseListFuel_nil dir n parent st, TravExt.rfl' dir st,
      ?_, ?_, ?_⟩
    · intro x hx
      simp at hx
    · intro z
      simp
    · intro f hf
      exact Or.inl hf
  | cons x xs ih =>
    intro hcard
    set st0 : GState V :=
      { st with
        inverse := Function.update st.inverse x
          (List.insert parent (st.inverse x)) }
      with hst0
    have hcard0 : (Finset.univ \ st0.treeDom).card < n := hcard
    obtain ⟨st1, he1, ext1, hx1, hinv1, hsnd1⟩ := hP st0 x hcard0
    have hsub1 : st.treeDom ⊆ st1.treeDom := ext1.dom
    have hcard1 : (Finset.univ \ st1.treeDom).card < n := by
      have hsd : Finset.univ \ st1.treeDom ⊆ Finset.univ \ st0.treeDom :=
        Finset.sdiff_subset_sdiff (Finset.Subset.refl _) ext1.dom
      exact lt_of_le_of_lt (Finset.card_le_card hsd) hcard0
    obtain ⟨st2, he2, ext2, hxs2, hinv2, hsnd2⟩ := ih st1 hcard1
    have ext01 : TravExt dir st st1 := by
      refine TravExt.trans ?_ ext1
      exact { dom := Finset.Subset.refl _, wrk := Finset.Subset.refl _,
              tOld := fun _ _ => rfl,
              tNew := fun _ hf hnf => absurd hf hnf,
              wNew := fun _ hf hnf => absurd hf hnf }
    refine ⟨st2, ?_, TravExt.trans ext01 ext2, ?_, ?_, ?_⟩
    · rw [traverseListFuel_cons, ← hst0, he1]
      exact he2
    · intro y hy
      rcases List.mem_cons.mp hy with rfl | hy
      · exact ext2.handled_mono hx1
      · exact hxs2 y hy
    · intro z
      rw [hinv2 z, hinv1 z]
      have hinv0 : (st0.inverse z).toFinset =
          (st.inverse z).toFinset ∪ (if z = x then {parent} else ∅) := by
        by_cases hz : z = x
        · subst hz
          simp [hst0, Function.update_same, toFinset_list_insert,
            Finset.insert_eq, Finset.union_comm]
        · simp [hst0, Function.update_noteq hz, hz]
      have hD0 : st0.treeDom = st.treeDom := rfl
      rw [hinv0, hD0]
      have hfil : (st1.treeDom \ st.treeDom).filter (fun f => z ∈ dir f) ∪
          (st2.treeDom \ st1.treeDom).filter (fun f => z ∈ dir f) =
          (st2.treeDom \ st.treeDom).filter (fun f => z ∈ dir f) :=
        sdiff_filter_union hsub1 ext2.dom _
      simp only [List.mem_cons]
      by_cases hzx : z = x
      · by_cases hzxs : z ∈ xs
        · rw [if_pos hzx, if_pos hzxs, if_pos (Or.inl hzx), ← hfil]
          ext w
          simp only [Finset.mem_union]
          tauto
        · rw [if_pos hzx, if_neg hzxs, if_pos (Or.inl hzx), ← hfil]
          ext w
          simp only [Finset.mem_union, Finset.not_mem_empty]
          tauto
      · by_cases hzxs : z ∈ xs
        · rw [if_neg hzx, if_pos hzxs,
            if_pos (Or.inr hzxs : z = x ∨ z ∈ xs), ← hfil]
          ext w
          simp only [Finset.mem_union, Finset.not_mem_empty]
          tauto
        · have hor : ¬ (z = x ∨ z ∈ xs) := by
            rintro (h | h)
            · exact hzx h
            · exact hzxs h
          rw [if_neg hzx, if_neg hzxs, if_neg hor, ← hfil]
          ext w
          simp only [Finset.mem_union, Finset.not_mem_empty]
          tauto
    · intro f hf
      rcases hsnd2 f hf with hf1 | ⟨y, hy, hr⟩
      · rcases hsnd1 f hf1 with hf0 | hr
        · exact Or.inl hf0
        · exact Or.inr ⟨x, List.mem_cons_self x xs, hr⟩
      · exact Or.inr ⟨y, List.mem_cons_of_mem x hy, hr⟩

theorem travP_succ (dir : V → List V) (n : Nat) (hL : TravLP dir n) :
    TravP dir (n + 1) := by
  intro st node hcard
  by_cases h1 : dirset dir node = ∅
  · refine ⟨{ st with working := insert node st.working },
      by rw [traverseFuel_succ, if_pos h1], ?_, ?_, ?_, ?_⟩
    · refine { dom := Finset.Subset.refl _,
               wrk := Finset.subset_insert _ _,
               tOld := fun _ _ => rfl,
               tNew := fun _ hf hnf => absurd hf hnf,
               wNew := ?_ }
      intro f hf hnf
      rcases Finset.mem_insert.mp hf with rfl | hf
      · exact h1
      · exact absurd hf hnf
    · exact Finset.mem_union_right _ (Finset.mem_insert_self node _)
    · intro z
      simp
    · intro f hf
      rcases Finset.mem_union.mp hf with hf | hf
      · exact Or.inl (Finset.mem_union_left _ hf)
      · rcases Finset.mem_insert.mp hf with rfl | hf
        · exact Or.inr Relation.ReflTransGen.refl
        · exact Or.inl (Finset.mem_union_right _ hf)
  · by_cases h2 : node ∈ st.treeDom
    · refine ⟨st, by rw [traverseFuel_succ, if_neg h1, if_pos h2],
        TravExt.rfl' dir st, Finset.mem_union_left _ h2, fun z => by simp,
        fun f hf => Or.inl hf⟩
    · set st1 : GState V :=
        { st with
          treeDom := insert node st.treeDom,
          tree := Function.update st.tree node (dirset dir node) } with hst1
      have hDsd : Finset.univ \ st1.treeDom =
          (Finset.univ \ st.treeDom).erase node := by
        ext w
        simp only [hst1, Finset.mem_sdiff, Finset.mem_erase, Finset.mem_univ,
          true_and, Finset.mem_insert]
        tauto
      have hmem : node ∈ Finset.univ \ st.treeDom :=
        Finset.mem_sdiff.mpr ⟨Finset.mem_univ node, h2⟩
      have hpos : 0 < (Finset.univ \ st.treeDom).card :=
        Finset.card_pos.mpr ⟨node, hmem⟩
      have hcard1 : (Finset.univ \ st1.treeDom).card < n := by
        rw [hDsd, Finset.card_erase_of_mem hmem]
        omega
      obtain ⟨st', he, ext, hall, hinv, hsnd⟩ :=
        hL st1 node (dir node).dedup hcard1
      have hnode1 : node ∈ st1.treeDom := by
        rw [hst1]
        exact Finset.mem_insert_self node st.treeDom
      have hnode' : node ∈ st'.treeDom := ext.dom hnode1
      have hW1 : st1.working = st.working := rfl
      refine ⟨st', by rw [traverseFuel_succ, if_neg h1, if_neg h2]; exact he,
        ?_, Finset.mem_union_left _ hnode', ?_, ?_⟩
      · refine { dom := (Finset.subset_insert node st.treeDom).trans ext.dom,
                 wrk := ext.wrk, tOld := ?_, tNew := ?_, wNew := ?_ }
        · intro f hf
          have hne : f ≠ node := fun h => h2 (h ▸ hf)
          have : f ∈ st1.treeDom := by
            rw [hst1]
            exact Finset.mem_insert_of_mem hf
          rw [ext.tOld f this]
          exact Function.update_noteq hne _ _
        · intro f hf hnf
          by_cases hfn : f = node
          · subst hfn
            refine ⟨?_, h1, ?_⟩
            · rw [ext.tOld f hnode1, hst1]
              exact Function.update_same _ _ _
            · intro z hz
              exact hall z (List.mem_dedup.mpr hz)
          · have : f ∉ st1.treeDom := by
              rw [hst1]
              intro hmemf
              rcases Finset.mem_insert.mp hmemf with h | h
              · exact hfn h
              · exact hnf h
            exact ext.tNew f hf this
        · intro f hf hnf
          exact ext.wNew f hf (by rw [hW1] at hnf ⊢; exact hnf)
      · intro z
        rw [hinv z]
        have hinv1 : st1.inverse z = st.inverse z := rfl
        rw [hinv1]
        have hF : (st'.treeDom \ st.treeDom).filter (fun f => z ∈ dir f) =
            (st'.treeDom \ st1.treeDom).filter (fun f => z ∈ dir f) ∪
              (if z ∈ dir node then {node} else ∅) := by
          by_cases hz : z ∈ dir node
          · rw [if_pos hz]
            ext w
            simp only [Finset.mem_filter, Finset.mem_sdiff, Finset.mem_union,
              Finset.mem_singleton, hst1, Finset.mem_insert]
            constructor
            · rintro ⟨⟨hw', hnw⟩, hp⟩
              by_cases hwn : w = node
              · exact Or.inr hwn
              · exact Or.inl ⟨⟨hw', fun h => h.elim hwn hnw⟩, hp⟩
            · rintro (⟨⟨hw', hnw⟩, hp⟩ | rfl)
              · exact ⟨⟨hw', fun h => hnw (Or.inr h)⟩, hp⟩
              · exact ⟨⟨hnode', h2⟩, hz⟩
          · rw [if_neg hz]
            ext w
            simp only [Finset.mem_filter, Finset.mem_sdiff, Finset.mem_union,
              Finset.not_mem_empty, or_false, hst1, Finset.mem_insert]
            constructor
            · rintro ⟨⟨hw', hnw⟩, hp⟩
              have hwn : w ≠ node := fun h => hz (h ▸ hp)
              exact ⟨⟨hw', fun h => h.elim hwn hnw⟩, hp⟩
            · rintro ⟨⟨hw', hnw⟩, hp⟩
              exact ⟨⟨hw', fun h => hnw (Or.inr h)⟩, hp⟩
        rw [hF]
        have hI : (if z ∈ (dir node).dedup then ({node} : Finset V) else ∅) =
            (if z ∈ dir node then ({node} : Finset V) else ∅) := by
          simp only [List.mem_dedup]
        rw [hI]
        ext w
        simp only [Finset.mem_union]
        tauto
      · intro f hf
        rcases hsnd f hf with hf1 | ⟨x, hx, hr⟩
        · have : handled st1 = insert node (handled st) := by
            ext w
            simp only [handled, hst1, Finset.mem_union, Finset.mem_insert]
            tauto
          rw [this] at hf1
          rcases Finset.mem_insert.mp hf1 with rfl | hf1
          · exact Or.inr Relation.ReflTransGen.refl
          · exact Or.inl hf1
        · exact Or.inr (hr.tail (List.mem_dedup.mp hx))

theorem travP_all (dir : V → List V) : ∀ n, TravP dir n := by
  intro n
  induction n with
  | zero =>
    intro st node h
    omega
  | succ n ih => exact travP_succ dir n (travLP_of_travP dir n ih)

/-- Claim C8: `traverse` terminates on every finite dependency graph,
cyclic ones included — a recursion-depth budget of one more than the number
of nodes always suffices, because a node with dependencies is recorded in
the tree before its dependencies are recursed into, a node already present
in the tree is not traversed again, and nodes without dependencies do not
recurse. -/
theorem traverse_terminates (dir : V → List V) (st : GState V) (node : V) :
    (traverseFuel dir (Fintype.card V + 1) st node).isSome = true := by
  have hb : (Finset.univ \ st.treeDom).card < Fintype.card V + 1 := by
    have h1 : (Finset.univ \ st.treeDom).card ≤ Finset.univ.card :=
      Finset.card_le_card (Finset.sdiff_subset)
    rw [Finset.card_univ] at h1
    omega
  obtain ⟨st', he, _⟩ := travP_all dir (Fintype.card V + 1) st node hb
  rw [he]
  rfl

/-- The total traversal: the fuelled one at the always-sufficient budget. -/
def traverse (dir : V → List V) (st : GState V) (node : V) : GState V :=
  (traverseFuel dir (Fintype.card V + 1) st node).getD st

theorem traverse_spec (dir : V → List V) (st : GState V) (node : V) :
    TravExt dir st (traverse dir st node) ∧
    node ∈ handled (traverse dir st node) ∧
    (∀ z, ((traverse dir st node).inverse z).toFinset =
      (st.inverse z).toFinset ∪
        ((traverse dir st node).treeDom \ st.treeDom).filter
          (fun f => z ∈ dir f)) ∧
    (∀ f ∈ handled (traverse dir st node),
      f ∈ handled st ∨ Relation.ReflTransGen (rel dir) f node) := by
  have hb : (Finset.univ \ st.treeDom).card < Fintype.card V + 1 := by
    have h1 : (Finset.univ \ st.treeDom).card ≤ Finset.univ.card :=
      Finset.card_le_card (Finset.sdiff_subset)
    rw [Finset.card_univ] at h1
    omega
  obtain ⟨st', he, hext, hh, hinv, hsnd⟩ :=
    travP_all dir (Fintype.card V + 1) st node hb
  have ht : traverse dir st node = st' := by
    rw [traverse, he]
    rfl
  rw [ht]
  exact ⟨hext, hh, hinv, hsnd⟩

/-- The traversal preamble of `sequence`: `for node in nodes:
traverse(directory, working, tree, inverse, node)` from the empty state. -/
def traverseAll (dir : V → List V) (roots : List V) : GState V :=
  roots.foldl (traverse dir) (GState.empty V)

theorem foldl_traverse_spec (dir : V → List V) (roots : List V) :
    ∀ st : GState V,
      TravExt dir st (roots.foldl (traverse dir) st) ∧
      (∀ r ∈ roots, r ∈ handled (roots.foldl (traverse dir) st)) ∧
      (∀ z, ((roots.foldl (traverse dir) st).inverse z).toFinset =
        (st.inverse z).toFinset ∪
          ((roots.foldl (traverse dir) st).treeDom \ st.treeDom).filter
            (fun f => z ∈ dir f)) ∧
      (∀ f ∈ handled (roots.foldl (traverse dir) st),
        f ∈ handled st ∨ ∃ r ∈ roots, Relation.ReflTransGen (rel dir) f r) := by
  induction roots with
  | nil =>
    intro st
    exact ⟨TravExt.rfl' dir st, by simp, fun z => by simp, fun f hf => Or.inl hf⟩
  | cons r rs ih =>
    intro st
    obtain ⟨ext1, hh1, hinv1, hsnd1⟩ := traverse_spec dir st r
    obtain ⟨ext2, hh2, hinv2, hsnd2⟩ := ih (traverse dir st r)
    rw [List.foldl_cons]
    refine ⟨ext1.trans ext2, ?_, ?_, ?_⟩
    · intro y hy
      rcases List.mem_cons.mp hy with rfl | hy
      · exact ext2.handled_mono hh1
      · exact hh2 y hy
    · intro z
      rw [hinv2 z, hinv1 z, Finset.union_assoc,
        sdiff_filter_union ext1.dom ext2.dom]
    · intro f hf
      rcases hsnd2 f hf with hf1 | ⟨y, hy, hr⟩
      · rcases hsnd1 f hf1 with hf0 | hr
        · exact Or.inl hf0
        · exact Or.inr ⟨r, List.mem_cons_self r rs, hr⟩
      · exact Or.inr ⟨y, List.mem_cons_of_mem r hy, hr⟩

/-- Reachability along dependency edges from the root nodes: the nodes of
the traversed graph. -/
def Reach (dir : V → List V) (roots : List V) (f : V) : Prop :=
  ∃ r ∈ roots, Relation.ReflTransGen (rel dir) f r

theorem traverseAll_spec (dir : V → List V) (roots : List V) :
    (∀ f, f ∈ handled (traverseAll dir roots) ↔ Reach dir roots f) ∧
    (∀ f, f ∈ (traverseAll dir roots).treeDom ↔
      Reach dir roots f ∧ dirset dir f ≠ ∅) ∧
    (∀ f, f ∈ (traverseAll dir roots).working ↔
      Reach dir roots f ∧ dirset dir f = ∅) ∧
    (∀ f ∈ (traverseAll dir roots).treeDom,
      (traverseAll dir roots).tree f = dirset dir f) ∧
    (∀ z, ((traverseAll dir roots).inverse z).toFinset =
      (traverseAll dir roots).treeDom.filter (fun f => z ∈ dir f)) := by
  obtain ⟨ext, hh, hinv, hsnd⟩ := foldl_traverse_spec dir roots (GState.empty V)
  set g := traverseAll dir roots with hg
  have hge : roots.foldl (traverse dir) (GState.empty V) = g := rfl
  rw [hge] at ext hh hinv hsnd
  have hEmptyH : handled (GState.empty V) = ∅ := by
    simp [handled, GState.empty]
  have htNew : ∀ f ∈ g.treeDom,
      g.tree f = dirset dir f ∧ dirset dir f ≠ ∅ ∧
        ∀ z ∈ dir f, z ∈ handled g := by
    intro f hf
    exact ext.tNew f hf (by simp [GState.empty])
  have hwNew : ∀ f ∈ g.working, dirset dir f = ∅ := by
    intro f hf
    exact ext.wNew f hf (by simp [GState.empty])
  have hReachHandled : ∀ f, Reach dir roots f → f ∈ handled g := by
    intro f ⟨r, hr, hRTG⟩
    induction hRTG using Relation.ReflTransGen.head_induction_on with
    | refl => exact hh r hr
    | head h' _ ihc =>
      rcases Finset.mem_union.mp ihc with hc | hc
      · exact (htNew _ hc).2.2 _ h'
      · have h3 := List.mem_toFinset.mpr h'
        have h2 := hwNew _ hc
        unfold dirset at h2
        rw [h2] at h3
        exact absurd h3 (Finset.not_mem_empty _)
  have hHandledReach : ∀ f, f ∈ handled g → Reach dir roots f := by
    intro f hf
    rcases hsnd f hf with hf0 | h
    · rw [hEmptyH] at hf0
      exact absurd hf0 (Finset.not_mem_empty f)
    · exact h
  refine ⟨fun f => ⟨hHandledReach f, hReachHandled f⟩, ?_, ?_, ?_, ?_⟩
  · intro f
    constructor
    · intro hf
      exact ⟨hHandledReach f (Finset.mem_union_left _ hf), (htNew f hf).2.1⟩
    · intro ⟨hre, hne⟩
      rcases Finset.mem_union.mp (hReachHandled f hre) with hf | hf
      · exact hf
      · exact absurd (hwNew f hf) hne
  · intro f
    constructor
    · intro hf
      exact ⟨hHandledReach f (Finset.mem_union_right _ hf), hwNew f hf⟩
    · intro ⟨hre, he⟩
      rcases Finset.mem_union.mp (hReachHandled f hre) with hf | hf
      · exact absurd he (htNew f hf).2.1
      · exact hf
  · intro f hf
    exact (htNew f hf).1
  · intro z
    rw [hinv z]
    simp [GState.empty]

/-! ### The sequencing loop of `graph.sequence`

Between yields, the generator's state is `working`, `tree`, `inverse` and
the batch `new` just yielded.  Receiving a completion tuple runs the loop
body; iteration order over Python sets is unspecified, so set iteration
walks the order given by a linear order on the nodes. -/

structure SState (V : Type) where
  working : Finset V
  new : Finset V
  treeDom : Finset V
  tree : V → Finset V
  inverse : V → List V

/-- The generator state at its first yield of factors: `new = working` after
the traversal preamble. -/
def sequenceInit (dir : V → List V) (roots : List V) : SState V :=
  let g := traverseAll dir roots
  ⟨g.working, g.working, g.treeDom, g.tree, g.inverse⟩

/-- `fd = tree.get(deps, empty); fd.discard(node); if not fd: new.add(deps);
working.add(deps)` — for an absent tree entry, `fd` is the shared `empty`
set, the discard is a no-op and the emptiness test passes. -/
def procDep (node : V) (st : SState V) (deps : V) : SState V :=
  if deps ∈ st.treeDom then
    let fd := (st.tree deps).erase node
    let st1 := { st with tree := Function.update st.tree deps fd }
    if fd = ∅ then
      { st1 with new := insert deps st1.new,
                 working := insert deps st1.working }
    else st1
  else
    { st with new := insert deps st.new, working := insert deps st.working }

/-- `working.discard(node); for deps in inverse[node]: ...`. -/
def procNode (st : SState V) (node : V) : SState V :=
  (st.inverse node).foldl (procDep node)
    { st with working := st.working.erase node }

/-- One iteration of the `while working` loop after receiving `completion`:
`new = set()`, then `for node in completion: ...`. -/
def sequenceStep (st : SState V) (completion : List V) : SState V :=
  completion.foldl procNode { st with new := ∅ }

/-- The final generator state after feeding the completions of `cs` in turn;
once `working` empties the loop exits and further completions are not
consumed. -/
def seqRun (st : SState V) : List (List V) → SState V
  | [] => st
  | c :: cs => if st.working = ∅ then st else seqRun (sequenceStep st c) cs

/-- The batches of factors yielded while feeding the completions of `cs`
(the generator is suspended at a yield whenever `working` is nonempty). -/
def seqBatches (st : SState V) : List (List V) → List (Finset V)
  | [] => if st.working = ∅ then [] else [st.new]
  | c :: cs =>
    if st.working = ∅ then []
    else st.new :: seqBatches (sequenceStep st c) cs

theorem seqRun_nil (st : SState V) : seqRun st [] = st := rfl

theorem seqRun_cons (st : SState V) (c : List V) (cs : List (List V)) :
    seqRun st (c :: cs) =
      if st.working = ∅ then st else seqRun (sequenceStep st c) cs := rfl

theorem seqBatches_nil (st : SState V) :
    seqBatches st [] = if st.working = ∅ then [] else [st.new] := rfl

theorem seqBatches_cons (st : SState V) (c : List V) (cs : List (List V)) :
    seqBatches st (c :: cs) =
      if st.working = ∅ then []
      else st.new :: seqBatches (sequenceStep st c) cs := rfl

/-- Union of the completions sent strictly before the `i`-th yield. -/
def completedBefore (cs : List (List V)) (i : Nat) : Finset V :=
  (cs.take i).foldr (fun c acc => c.toFinset ∪ acc) ∅

/-- The requirement index built before the loop (the second component of
each yield): the tree entries bucketed by factor type. -/
def sequenceReqs {T : Type} [DecidableEq T] (vtype : V → T) (g : GState V)
    (x : V) (t : T) : Finset V :=
  if x ∈ g.treeDom then (g.tree x).filter (fun f => vtype f = t) else ∅

/-- The third component of each yield: the dependents of each newly ready
factor that has a nonempty inverse entry. -/
def sequenceDeps (st : SState V) (x : V) : Option (List V) :=
  if x ∈ st.new ∧ st.inverse x ≠ [] then some (st.inverse x) else none

/-- The claim's protocol hypothesis: every completion sent consists of
factors previously emitted. -/
def fromEmitted (E : Finset V) (st : SState V) : List (List V) → Bool
  | [] => true
  | c :: cs =>
    if st.working = ∅ then true
    else
      c.all (fun x => decide (x ∈ E ∪ st.new)) &&
        fromEmitted (E ∪ st.new) (sequenceStep st c) cs

/-- The invariant behind the scheduling order: inverse entries point into
the tree, every tree entry still contains its not-yet-completed
dependencies, and every factor of the current batch has either no
dependencies or only completed ones. -/
def SeqInv (dir : V → List V) (C : Finset V) (st : SState V) : Prop :=
  (∀ z, ∀ x ∈ st.inverse z, x ∈ st.treeDom) ∧
  (∀ f ∈ st.treeDom, dirset dir f \ C ⊆ st.tree f) ∧
  (∀ f ∈ st.new, dirset dir f = ∅ ∨ dirset dir f ⊆ C)

theorem SeqInv.mono {dir : V → List V} {C C' : Finset V} {st : SState V}
    (h : SeqInv dir C st) (hsub : C ⊆ C') : SeqInv dir C' st := by
  obtain ⟨h1, h2, h3⟩ := h
  refine ⟨h1, ?_, ?_⟩
  · intro f hf
    exact (Finset.sdiff_subset_sdiff (Finset.Subset.refl _) hsub).trans (h2 f hf)
  · intro f hf
    rcases h3 f hf with h | h
    · exact Or.inl h
    · exact Or.inr (h.trans hsub)

theorem procDep_treeDom (node : V) (st : SState V) (deps : V) :
    (procDep node st deps).treeDom = st.treeDom := by
  unfold procDep
  by_cases h : deps ∈ st.treeDom
  · rw [if_pos h]
    by_cases he : (st.tree deps).erase node = ∅
    · rw [if_pos he]
    · rw [if_neg he]
  · rw [if_neg h]

theorem procDep_inv {dir : V → List V} {C : Finset V} {node : V}
    (st : SState V) (deps : V) (h : SeqInv dir C st) (hC : node ∈ C)
    (hdeps : deps ∈ st.treeDom) :
    SeqInv dir C (procDep node st deps) := by
  obtain ⟨h1, h2, h3⟩ := h
  unfold procDep
  rw [if_pos hdeps]
  by_cases he : (st.tree deps).erase node = ∅
  · rw [if_pos he]
    refine ⟨h1, ?_, ?_⟩
    · intro f hf
      intro w hw
      have hw' := Finset.mem_sdiff.mp hw
      by_cases hfd : f = deps
      · subst hfd
        have : w ∈ (st.tree f).erase node := by
          rw [Finset.mem_erase]
          refine ⟨fun hwn => hw'.2 (hwn ▸ hC), h2 f hf hw⟩
        rw [he] at this
        exact absurd this (Finset.not_mem_empty w)
      · show w ∈ Function.update st.tree deps ((st.tree deps).erase node) f
        rw [Function.update_noteq hfd]
        exact h2 f hf hw
    · intro f hf
      rcases Finset.mem_insert.mp hf with rfl | hf
      · by_cases hde : dirset dir f = ∅
        · exact Or.inl hde
        · refine Or.inr ?_
          intro w hw
          by_cases hwC : w ∈ C
          · exact hwC
          · have : w ∈ (st.tree f).erase node := by
              rw [Finset.mem_erase]
              exact ⟨fun hwn => hwC (hwn ▸ hC),
                h2 f hdeps (Finset.mem_sdiff.mpr ⟨hw, hwC⟩)⟩
            rw [he] at this
            exact absurd this (Finset.not_mem_empty w)
      · exact h3 f hf
  · rw [if_neg he]
    refine ⟨h1, ?_, h3⟩
    intro f hf w hw
    have hw' := Finset.mem_sdiff.mp hw
    by_cases hfd : f = deps
    · subst hfd
      show w ∈ Function.update st.tree f ((st.tree f).erase node) f
      rw [Function.update_same, Finset.mem_erase]
      exact ⟨fun hwn => hw'.2 (hwn ▸ hC), h2 f hf hw⟩
    · show w ∈ Function.update st.tree deps ((st.tree deps).erase node) f
      rw [Function.update_noteq hfd]
      exact h2 f hf hw

theorem foldl_procDep_inv {dir : V → List V} {C : Finset V} {node : V}
    (l : List V) : ∀ st : SState V, SeqInv dir C st → node ∈ C →
    (∀ x ∈ l, x ∈ st.treeDom) →
    SeqInv dir C (l.foldl (procDep node) st) := by
  induction l with
  | nil => exact fun st h _ _ => h
  | cons x xs ih =>
    intro st h hC hl
    rw [List.foldl_cons]
    have hx : x ∈ st.treeDom := hl x (List.mem_cons_self x xs)
    have h1 := procDep_inv st x h hC hx
    refine ih _ h1 hC ?_
    intro y hy
    rw [procDep_treeDom]
    exact hl y (List.mem_cons_of_mem x hy)

theorem procNode_inv {dir : V → List V} {C : Finset V} (st : SState V)
    (node : V) (h : SeqInv dir C st) :
    SeqInv dir (insert node C) (procNode st node) := by
  unfold procNode
  have h0 : SeqInv dir C { st with working := st.working.erase node } :=
    ⟨h.1, h.2.1, h.2.2⟩
  have h' : SeqInv dir (insert node C)
      { st with working := st.working.erase node } :=
    h0.mono (Finset.subset_insert node C)
  refine foldl_procDep_inv _ _ h' (Finset.mem_insert_self node C) ?_
  intro x hx
  exact h.1 node x hx

theorem sequenceStep_inv {dir : V → List V} {C : Finset V}
    (c : List V) : ∀ st : SState V, SeqInv dir C st →
    SeqInv dir (C ∪ c.toFinset) (sequenceStep st c) := by
  have main : ∀ (c' : List V) (C' : Finset V) (st : SState V),
      SeqInv dir C' st →
      SeqInv dir (C' ∪ c'.toFinset) (c'.foldl procNode st) := by
    intro c'
    induction c' with
    | nil =>
      intro C' st h
      exact h.mono (by simp)
    | cons nd c'' ih =>
      intro C' st h
      rw [List.foldl_cons]
      have h1 := procNode_inv st nd h
      have h2 := ih _ _ h1
      refine h2.mono ?_
      intro w hw
      simp only [Finset.mem_union, Finset.mem_insert, List.mem_toFinset,
        List.toFinset_cons, List.mem_cons] at hw ⊢
      tauto
  intro st h
  have h0 : SeqInv dir C { st with new := (∅ : Finset V) } := by
    refine ⟨h.1, h.2.1, ?_⟩
    intro f hf
    exact absurd hf (Finset.not_mem_empty f)
  exact main c C { st with new := ∅ } h0

theorem seqBatches_sound {dir : V → List V} :
    ∀ (cs : List (List V)) (C : Finset V) (st : SState V),
      SeqInv dir C st →
      ∀ i, ∀ f ∈ (seqBatches st cs).getD i ∅,
        dirset dir f = ∅ ∨ dirset dir f ⊆ C ∪ completedBefore cs i := by
  intro cs
  induction cs with
  | nil =>
    intro C st h i f hf
    rw [seqBatches_nil] at hf
    by_cases hw : st.working = ∅
    · rw [if_pos hw] at hf
      simp at hf
    · rw [if_neg hw] at hf
      cases i with
      | zero =>
        rw [List.getD_cons_zero] at hf
        rcases h.2.2 f hf with h0 | h0
        · exact Or.inl h0
        · exact Or.inr (h0.trans Finset.subset_union_left)
      | succ j =>
        rw [List.getD_cons_succ, List.getD_nil] at hf
        exact absurd hf (Finset.not_mem_empty f)
  | cons c cs' ih =>
    intro C st h i f hf
    rw [seqBatches_cons] at hf
    by_cases hw : st.working = ∅
    · rw [if_pos hw] at hf
      simp at hf
    · rw [if_neg hw] at hf
      cases i with
      | zero =>
        rw [List.getD_cons_zero] at hf
        rcases h.2.2 f hf with h0 | h0
        · exact Or.inl h0
        · exact Or.inr (h0.trans Finset.subset_union_left)
      | succ j =>
        rw [List.getD_cons_succ] at hf
        have hstep := sequenceStep_inv c st h
        have := ih (C ∪ c.toFinset) (sequenceStep st c) hstep j f hf
        rcases this with h0 | h0
        · exact Or.inl h0
        · refine Or.inr (h0.trans ?_)
          intro w hw'
          simp only [Finset.mem_union, completedBefore, List.take_succ_cons,
            List.foldr_cons] at hw' ⊢
          tauto

theorem sequenceInit_inv (dir : V → List V) (roots : List V) :
    SeqInv dir ∅ (sequenceInit dir roots) := by
  obtain ⟨_, _, hwork, htree, hinv⟩ := traverseAll_spec dir roots
  refine ⟨?_, ?_, ?_⟩
  · intro z x hx
    have hx' : x ∈ ((traverseAll dir roots).inverse z).toFinset :=
      List.mem_toFinset.mpr hx
    rw [hinv z] at hx'
    exact (Finset.mem_filter.mp hx').1
  · intro f hf
    show dirset dir f \ ∅ ⊆ (traverseAll dir roots).tree f
    rw [Finset.sdiff_empty, htree f hf]
  · intro f hf
    exact Or.inl ((hwork f).mp hf).2

/-- Claim C1: provided every completion sent to the generator consists of
previously emitted factors, every factor of every yielded batch either has
no dependencies at all or has all of its dependencies (per the directory
function) among the completions received before that batch was yielded. -/
theorem sequence_topological_order (dir : V → List V) (roots : List V)
    (cs : List (List V))
    (hfe : fromEmitted ∅ (sequenceInit dir roots) cs = true) :
    ∀ i, ∀ f ∈ (seqBatches (sequenceInit dir roots) cs).getD i ∅,
      dirset dir f = ∅ ∨ dirset dir f ⊆ completedBefore cs i := by
  intro i f hf
  have := seqBatches_sound cs ∅ (sequenceInit dir roots)
    (sequenceInit_inv dir roots) i f hf
  rcases this with h | h
  · exact Or.inl h
  · refine Or.inr (h.trans ?_)
    rw [Finset.empty_union]

/-- A small concrete dependency graph for exercising the sequencer:
`0` depends on `1` and `2`, `1` depends on `2`, `2` has no dependencies. -/
def dir3 : Fin 3 → List (Fin 3) :=
  fun i => if i = 0 then [1, 2] else if i = 1 then [2] else []

/-- Witness for `sequence_topological_order`: on `dir3` from root `0` with
completions `[[2], [1], [0]]`, the second batch's factor `1` has all of its
dependencies among the completions received before it. -/
theorem sequence_topological_order_witness :
    dirset dir3 1 = ∅ ∨ dirset dir3 1 ⊆ completedBefore [[2], [1], [0]] 1 :=
  sequence_topological_order dir3 [0] [[2], [1], [0]] (by decide) 1 1
    (by decide)

/-! ### Completeness and termination of the sequencing loop (C2) -/

/-- Trace validity: every completion consists of distinct factors currently
in the working set (emitted and not yet completed — "sent back exactly
once"). -/
def validTrace (st : SState V) : List (List V) → Bool
  | [] => true
  | c :: cs =>
    if st.working = ∅ then true
    else
      c.all (fun x => decide (x ∈ st.working)) && decide c.Nodup &&
        validTrace (sequenceStep st c) cs

theorem validTrace_nil (st : SState V) : validTrace st [] = true := rfl

theorem validTrace_cons (st : SState V) (c : List V) (cs : List (List V)) :
    validTrace st (c :: cs) =
      if st.working = ∅ then true
      else
        c.all (fun x => decide (x ∈ st.working)) && decide c.Nodup &&
          validTrace (sequenceStep st c) cs := rfl

/-- Union of the completions actually consumed by the generator. -/
def completedAll (st : SState V) : List (List V) → Finset V
  | [] => ∅
  | c :: cs =>
    if st.working = ∅ then ∅
    else c.toFinset ∪ completedAll (sequenceStep st c) cs

theorem completedAll_nil (st : SState V) : completedAll st [] = ∅ := rfl

theorem completedAll_cons (st : SState V) (c : List V) (cs : List (List V)) :
    completedAll st (c :: cs) =
      if st.working = ∅ then ∅
      else c.toFinset ∪ completedAll (sequenceStep st c) cs := rfl

/-- Union of all yielded batches. -/
def emittedAll (st : SState V) (cs : List (List V)) : Finset V :=
  (seqBatches st cs).foldr (· ∪ ·) ∅

/-- The nodes of the traversed graph. -/
def RSet (dir : V → List V) (roots : List V) : Finset V :=
  handled (traverseAll dir roots)

/-- The traversed nodes all of whose dependencies lie in `C`: exactly the
factors emitted once the completed set is `C`. -/
def ESet (dir : V → List V) (roots : List V) (C : Finset V) : Finset V :=
  (RSet dir roots).filter (fun f => dirset dir f ⊆ C)

theorem ESet_mono (dir : V → List V) (roots : List V) {C C' : Finset V}
    (h : C ⊆ C') : ESet dir roots C ⊆ ESet dir roots C' := by
  intro f hf
  rw [ESet, Finset.mem_filter] at hf ⊢
  exact ⟨hf.1, hf.2.trans h⟩

theorem erase_sdiff_insert (s t : Finset V) (a : V) :
    (s \ t).erase a = s \ insert a t := by
  ext w
  simp only [Finset.mem_erase, Finset.mem_sdiff, Finset.mem_insert]
  tauto

theorem treeDom_iff_RSet (dir : V → List V) (roots : List V) (f : V) :
    f ∈ (traverseAll dir roots).treeDom ↔
      f ∈ RSet dir roots ∧ dirset dir f ≠ ∅ := by
  obtain ⟨hhan, hDom, _, _, _⟩ := traverseAll_spec dir roots
  rw [hDom f, RSet, hhan f]

/-- The master invariant of the sequencing loop, mid-completion: `C0` is the
completed set at the last yield, `Cp` the completed set including the prefix
of the received completion already processed. -/
def StepInv (dir : V → List V) (roots : List V) (C0 Cp : Finset V)
    (st : SState V) : Prop :=
  st.treeDom = (traverseAll dir roots).treeDom ∧
  (∀ z, (st.inverse z).toFinset =
    (traverseAll dir roots).treeDom.filter (fun f => z ∈ dir f)) ∧
  (∀ f ∈ st.treeDom, st.tree f = dirset dir f \ Cp) ∧
  C0 ⊆ Cp ∧ Cp ⊆ ESet dir roots C0 ∧
  st.working = ESet dir roots Cp \ Cp ∧
  st.new = ESet dir roots Cp \ ESet dir roots C0

/-- The master invariant at a yield: `C` completed, `Eprev` emitted before
the current batch. -/
def MInv (dir : V → List V) (roots : List V) (C Eprev : Finset V)
    (st : SState V) : Prop :=
  st.treeDom = (traverseAll dir roots).treeDom ∧
  (∀ z, (st.inverse z).toFinset =
    (traverseAll dir roots).treeDom.filter (fun f => z ∈ dir f)) ∧
  (∀ f ∈ st.treeDom, st.tree f = dirset dir f \ C) ∧
  C ⊆ ESet dir roots C ∧ Eprev ⊆ ESet dir roots C ∧
  st.working = ESet dir roots C \ C ∧
  st.new = ESet dir roots C \ Eprev

theorem procDep_eq_of_mem (node : V) (st : SState V) (deps : V)
    (h : deps ∈ st.treeDom) :
    procDep node st deps =
      if (st.tree deps).erase node = ∅ then
        { st with
          tree := Function.update st.tree deps ((st.tree deps).erase node),
          new := insert deps st.new,
          working := insert deps st.working }
      else
        { st with
          tree := Function.update st.tree deps ((st.tree deps).erase node) } := by
  unfold procDep
  rw [if_pos h]

theorem foldl_procDep_char (node : V) :
    ∀ (l : List V) (st : SState V), (∀ x ∈ l, x ∈ st.treeDom) →
      ((l.foldl (procDep node) st).working =
        st.working ∪
          l.toFinset.filter (fun f => (st.tree f).erase node = ∅)) ∧
      ((l.foldl (procDep node) st).new =
        st.new ∪
          l.toFinset.filter (fun f => (st.tree f).erase node = ∅)) ∧
      ((l.foldl (procDep node) st).treeDom = st.treeDom) ∧
      (∀ f, (l.foldl (procDep node) st).tree f =
        if f ∈ l then (st.tree f).erase node else st.tree f) ∧
      ((l.foldl (procDep node) st).inverse = st.inverse) := by
  intro l
  induction l with
  | nil =>
    intro st _
    refine ⟨by simp, by simp, rfl, ?_, rfl⟩
    intro f
    simp
  | cons x xs ih =>
    intro st hmem
    have hx : x ∈ st.treeDom := hmem x (List.mem_cons_self x xs)
    rw [List.foldl_cons, procDep_eq_of_mem node st x hx]
    by_cases he : (st.tree x).erase node = ∅
    · rw [if_pos he]
      set st1 : SState V :=
        { st with
          tree := Function.update st.tree x ((st.tree x).erase node),
          new := insert x st.new,
          working := insert x st.working } with hst1
      have hmem1 : ∀ y ∈ xs, y ∈ st1.treeDom := fun y hy =>
        hmem y (List.mem_cons_of_mem x hy)
      obtain ⟨hw, hn, hd, ht, hi⟩ := ih st1 hmem1
      have hfc : xs.toFinset.filter
            (fun f => (st1.tree f).erase node = ∅) =
          xs.toFinset.filter (fun f => (st.tree f).erase node = ∅) := by
        apply Finset.filter_congr
        intro f _
        by_cases hfx : f = x
        · subst hfx
          rw [hst1]
          show ((Function.update st.tree f ((st.tree f).erase node) f).erase
            node = ∅) ↔ _
          rw [Function.update_same, Finset.erase_idem]
        · rw [hst1]
          show ((Function.update st.tree x ((st.tree x).erase node) f).erase
            node = ∅) ↔ _
          rw [Function.update_noteq hfx]
      refine ⟨?_, ?_, hd, ?_, hi⟩
      · rw [hw, hfc, hst1]
        show insert x st.working ∪ _ = _
        rw [List.toFinset_cons, Finset.filter_insert, if_pos he,
          Finset.insert_union, Finset.union_insert]
      · rw [hn, hfc, hst1]
        show insert x st.new ∪ _ = _
        rw [List.toFinset_cons, Finset.filter_insert, if_pos he,
          Finset.insert_union, Finset.union_insert]
      · intro f
        rw [ht f]
        by_cases hfx : f = x
        · subst hfx
          rw [if_pos (List.mem_cons_self f xs)]
          by_cases hfxs : f ∈ xs
          · rw [if_pos hfxs, hst1]
            show ((Function.update st.tree f ((st.tree f).erase node))
              f).erase node = _
            rw [Function.update_same, Finset.erase_idem]
          · rw [if_neg hfxs, hst1]
            show (Function.update st.tree f ((st.tree f).erase node)) f = _
            rw [Function.update_same]
        · have hupd : st1.tree f = st.tree f := by
            rw [hst1]
            exact Function.update_noteq hfx _ _
          rw [hupd]
          by_cases hfxs : f ∈ xs
          · rw [if_pos hfxs, if_pos (List.mem_cons_of_mem x hfxs)]
          · rw [if_neg hfxs,
              if_neg (fun hc => (List.mem_cons.mp hc).elim hfx hfxs)]
    · rw [if_neg he]
      set st1 : SState V :=
        { st with
          tree := Function.update st.tree x ((st.tree x).erase node) } with hst1
      have hmem1 : ∀ y ∈ xs, y ∈ st1.treeDom := fun y hy =>
        hmem y (List.mem_cons_of_mem x hy)
      obtain ⟨hw, hn, hd, ht, hi⟩ := ih st1 hmem1
      have hfc : xs.toFinset.filter
            (fun f => (st1.tree f).erase node = ∅) =
          xs.toFinset.filter (fun f => (st.tree f).erase node = ∅) := by
        apply Finset.filter_congr
        intro f _
        by_cases hfx : f = x
        · subst hfx
          rw [hst1]
          show ((Function.update st.tree f ((st.tree f).erase node) f).erase
            node = ∅) ↔ _
          rw [Function.update_same, Finset.erase_idem]
        · rw [hst1]
          show ((Function.update st.tree x ((st.tree x).erase node) f).erase
            node = ∅) ↔ _
          rw [Function.update_noteq hfx]
      refine ⟨?_, ?_, hd, ?_, hi⟩
      · rw [hw, hfc, hst1]
        show st.working ∪ _ = _
        rw [List.toFinset_cons, Finset.filter_insert, if_neg he]
      · rw [hn, hfc, hst1]
        show st.new ∪ _ = _
        rw [List.toFinset_cons, Finset.filter_insert, if_neg he]
      · intro f
        rw [ht f]
        by_cases hfx : f = x
        · subst hfx
          rw [if_pos (List.mem_cons_self f xs)]
          by_cases hfxs : f ∈ xs
          · rw [if_pos hfxs, hst1]
            show ((Function.update st.tree f ((st.tree f).erase node))
              f).erase node = _
            rw [Function.update_same, Finset.erase_idem]
          · rw [if_neg hfxs, hst1]
            show (Function.update st.tree f ((st.tree f).erase node)) f = _
            rw [Function.update_same]
        · have hupd : st1.tree f = st.tree f := by
            rw [hst1]
            exact Function.update_noteq hfx _ _
          rw [hupd]
          by_cases hfxs : f ∈ xs
          · rw [if_pos hfxs, if_pos (List.mem_cons_of_mem x hfxs)]
          · rw [if_neg hfxs,
              if_neg (fun hc => (List.mem_cons.mp hc).elim hfx hfxs)]


theorem procNode_step (dir : V → List V) (roots : List V)
    {C0 Cp : Finset V} {st : SState V} {node : V}
    (h : StepInv dir roots C0 Cp st)
    (hn : node ∈ ESet dir roots C0) (hnp : node ∉ Cp) :
    StepInv dir roots C0 (insert node Cp) (procNode st node) := by
  obtain ⟨hD, hI, hT, hC0p, hCpE, hW, hN⟩ := h
  have hlD : ∀ x ∈ st.inverse node, x ∈ st.treeDom := by
    intro x hx
    have hx' : x ∈ (st.inverse node).toFinset := List.mem_toFinset.mpr hx
    rw [hI node] at hx'
    rw [hD]
    exact (Finset.mem_filter.mp hx').1
  have hchar := foldl_procDep_char node (st.inverse node)
    { st with working := st.working.erase node } hlD
  obtain ⟨hw', hn', hd', ht', hi'⟩ := hchar
  have hlmem : ∀ f, f ∈ st.inverse node ↔
      f ∈ (traverseAll dir roots).treeDom ∧ node ∈ dir f := by
    intro f
    rw [← List.mem_toFinset, hI node, Finset.mem_filter]
  have htf : ∀ f ∈ (traverseAll dir roots).treeDom,
      st.tree f = dirset dir f \ Cp := by
    intro f hf
    exact hT f (hD.symm ▸ hf)
  have hA : (st.inverse node).toFinset.filter
        (fun f => (st.tree f).erase node = ∅) =
      ESet dir roots (insert node Cp) \ ESet dir roots Cp := by
    ext f
    rw [Finset.mem_filter, hI node, Finset.mem_filter, Finset.mem_sdiff]
    constructor
    · rintro ⟨⟨hfD, hnd⟩, hemp⟩
      rw [htf f hfD, erase_sdiff_insert, Finset.sdiff_eq_empty_iff_subset]
        at hemp
      have hfR : f ∈ RSet dir roots := ((treeDom_iff_RSet dir roots f).mp hfD).1
      refine ⟨Finset.mem_filter.mpr ⟨hfR, hemp⟩, ?_⟩
      intro hcon
      have hsub := (Finset.mem_filter.mp hcon).2
      exact hnp (hsub (List.mem_toFinset.mpr hnd))
    · rintro ⟨hfE, hfnE⟩
      obtain ⟨hfR, hsub⟩ := Finset.mem_filter.mp hfE
      have hnsub : ¬ dirset dir f ⊆ Cp := by
        intro hcon
        exact hfnE (Finset.mem_filter.mpr ⟨hfR, hcon⟩)
      obtain ⟨w, hw1, hw2⟩ := Finset.not_subset.mp hnsub
      have hwn : w = node := by
        have := hsub hw1
        rcases Finset.mem_insert.mp this with h1 | h1
        · exact h1
        · exact absurd h1 hw2
      subst hwn
      have hnd : w ∈ dir f := List.mem_toFinset.mp hw1
      have hfD : f ∈ (traverseAll dir roots).treeDom := by
        rw [treeDom_iff_RSet]
        refine ⟨hfR, ?_⟩
        intro hcon
        rw [hcon] at hw1
        exact Finset.not_mem_empty w hw1
      refine ⟨⟨hfD, hnd⟩, ?_⟩
      rw [htf f hfD, erase_sdiff_insert, Finset.sdiff_eq_empty_iff_subset]
      exact hsub
  have hECp' : ESet dir roots Cp ⊆ ESet dir roots (insert node Cp) :=
    ESet_mono dir roots (Finset.subset_insert node Cp)
  have hE0p : ESet dir roots C0 ⊆ ESet dir roots Cp :=
    ESet_mono dir roots hC0p
  have hnE : node ∈ ESet dir roots Cp := hE0p hn
  refine ⟨?_, ?_, ?_, ?_, ?_, ?_, ?_⟩
  · rw [procNode, hd']
    exact hD
  · intro z
    rw [procNode, hi']
    exact hI z
  · intro f hf
    rw [procNode] at hf ⊢
    rw [hd'] at hf
    rw [ht' f]
    by_cases hfl : f ∈ st.inverse node
    · rw [if_pos hfl]
      have hfD : f ∈ (traverseAll dir roots).treeDom := hD ▸ (hlD f hfl)
      rw [htf f hfD, erase_sdiff_insert]
    · rw [if_neg hfl]
      have hfD : f ∈ (traverseAll dir roots).treeDom := hD ▸ hf
      have hnnd : node ∉ dir f := by
        intro hcon
        exact hfl ((hlmem f).mpr ⟨hfD, hcon⟩)
      rw [htf f hfD]
      ext w
      simp only [Finset.mem_sdiff, Finset.mem_insert]
      constructor
      · rintro ⟨hw1, hw2⟩
        refine ⟨hw1, ?_⟩
        rintro (rfl | h1)
        · exact hnnd (List.mem_toFinset.mp hw1)
        · exact hw2 h1
      · rintro ⟨hw1, hw2⟩
        exact ⟨hw1, fun h1 => hw2 (Or.inr h1)⟩
  · exact hC0p.trans (Finset.subset_insert node Cp)
  · exact Finset.insert_subset_iff.mpr ⟨hn, hCpE⟩
  · rw [procNode, hw', hA, hW]
    have hn2 : node ∉ ESet dir roots (insert node Cp) \ ESet dir roots Cp :=
      fun hcon => (Finset.mem_sdiff.mp hcon).2 hnE
    ext w
    simp only [Finset.mem_union, Finset.mem_sdiff, Finset.mem_erase,
      Finset.mem_insert]
    constructor
    · rintro (⟨hwn, hw1, hw2⟩ | ⟨hw1, hw2⟩)
      · exact ⟨hECp' hw1, fun h1 => h1.elim hwn hw2⟩
      · refine ⟨hw1, ?_⟩
        rintro (rfl | h1)
        · exact hw2 hnE
        · exact hw2 (hE0p (hCpE h1))
    · rintro ⟨hw1, hw2⟩
      by_cases hwp : w ∈ ESet dir roots Cp
      · refine Or.inl ⟨?_, hwp, ?_⟩
        · intro hcon
          exact hw2 (Or.inl hcon)
        · intro hcon
          exact hw2 (Or.inr hcon)
      · exact Or.inr ⟨hw1, hwp⟩
  · rw [procNode, hn', hA, hN]
    ext w
    simp only [Finset.mem_union, Finset.mem_sdiff]
    constructor
    · rintro (⟨hw1, hw2⟩ | ⟨hw1, hw2⟩)
      · exact ⟨hECp' hw1, hw2⟩
      · refine ⟨hw1, ?_⟩
        intro hcon
        exact hw2 (hE0p hcon)
    · rintro ⟨hw1, hw2⟩
      by_cases hwp : w ∈ ESet dir roots Cp
      · exact Or.inl ⟨hwp, hw2⟩
      · exact Or.inr ⟨hw1, hwp⟩

theorem stepInv_fold (dir : V → List V) (roots : List V) {C0 : Finset V} :
    ∀ (c : List V) (Cp : Finset V) (st : SState V),
      StepInv dir roots C0 Cp st →
      (∀ x ∈ c, x ∈ ESet dir roots C0 ∧ x ∉ Cp) → c.Nodup →
      StepInv dir roots C0 (Cp ∪ c.toFinset) (c.foldl procNode st) := by
  intro c
  induction c with
  | nil =>
    intro Cp st h _ _
    have he : Cp ∪ ([] : List V).toFinset = Cp := by
      simp
    rw [List.foldl_nil, he]
    exact h
  | cons n c' ih =>
    intro Cp st h hc hnd
    rw [List.foldl_cons]
    have hn := hc n (List.mem_cons_self n c')
    have h1 := procNode_step dir roots h hn.1 hn.2
    have h2 := ih (insert n Cp) (procNode st n) h1 ?_ (List.nodup_cons.mp hnd).2
    · have he : Cp ∪ (n :: c').toFinset = insert n Cp ∪ c'.toFinset := by
        ext w
        simp only [Finset.mem_union, List.toFinset_cons, Finset.mem_insert,
          List.mem_toFinset]
        tauto
      rw [he]
      exact h2
    · intro x hx
      refine ⟨(hc x (List.mem_cons_of_mem n hx)).1, ?_⟩
      intro hcon
      rcases Finset.mem_insert.mp hcon with rfl | h3
      · exact (List.nodup_cons.mp hnd).1 hx
      · exact (hc x (List.mem_cons_of_mem n hx)).2 h3

theorem MInv_step (dir : V → List V) (roots : List V)
    {C Eprev : Finset V} {st : SState V} (c : List V)
    (h : MInv dir roots C Eprev st)
    (hc : ∀ x ∈ c, x ∈ st.working) (hnd : c.Nodup) :
    MInv dir roots (C ∪ c.toFinset) (ESet dir roots C)
      (sequenceStep st c) := by
  obtain ⟨hD, hI, hT, hCE, hPE, hW, hN⟩ := h
  have h0 : StepInv dir roots C C { st with new := (∅ : Finset V) } :=
    ⟨hD, hI, hT, Finset.Subset.refl C, hCE, hW, (Finset.sdiff_self _).symm⟩
  have hcond : ∀ x ∈ c, x ∈ ESet dir roots C ∧ x ∉ C := by
    intro x hx
    have := hc x hx
    rw [hW] at this
    exact Finset.mem_sdiff.mp this
  have hfold := stepInv_fold dir roots c C _ h0 hcond hnd
  obtain ⟨hD', hI', hT', hCC', hC'E, hW', hN'⟩ := hfold
  exact ⟨hD', hI', hT',
    hC'E.trans (ESet_mono dir roots hCC'),
    ESet_mono dir roots hCC', hW', hN'⟩

theorem new_subset_batches (st : SState V) (cs : List (List V))
    (hw : st.working ≠ ∅) :
    st.new ⊆ (seqBatches st cs).foldr (· ∪ ·) ∅ := by
  cases cs with
  | nil =>
    rw [seqBatches_nil, if_neg hw]
    show st.new ⊆ st.new ∪ ∅
    exact Finset.subset_union_left
  | cons c cs' =>
    rw [seqBatches_cons, if_neg hw]
    show st.new ⊆ st.new ∪ _
    exact Finset.subset_union_left

theorem seqRun_spec (dir : V → List V) (roots : List V) :
    ∀ (cs : List (List V)) (C Eprev : Finset V) (st : SState V),
      MInv dir roots C Eprev st → validTrace st cs = true →
      (∃ Ep, MInv dir roots (C ∪ completedAll st cs) Ep (seqRun st cs)) ∧
      ESet dir roots (C ∪ completedAll st cs) =
        ESet dir roots C ∪ (seqBatches st cs).foldr (· ∪ ·) ∅ ∧
      (∀ b ∈ seqBatches st cs, Disjoint b Eprev) ∧
      (seqBatches st cs).Pairwise Disjoint := by
  intro cs
  induction cs with
  | nil =>
    intro C Ep st h _
    rw [seqRun_nil, seqBatches_nil, completedAll_nil, Finset.union_empty]
    by_cases hw : st.working = ∅
    · rw [if_pos hw]
      refine ⟨⟨Ep, h⟩, by simp, by simp, by simp⟩
    · rw [if_neg hw]
      have hsub : st.new ⊆ ESet dir roots C := by
        rw [h.2.2.2.2.2.2]
        exact Finset.sdiff_subset
      refine ⟨⟨Ep, h⟩, ?_, ?_, by simp⟩
      · show ESet dir roots C = ESet dir roots C ∪ (st.new ∪ ∅)
        rw [Finset.union_empty]
        exact (Finset.union_eq_left.mpr hsub).symm
      · intro b hb
        have hb' : b = st.new := List.mem_singleton.mp hb
        subst hb'
        rw [h.2.2.2.2.2.2]
        exact Finset.sdiff_disjoint
  | cons c cs' ih =>
    intro C Ep st h hval
    rw [seqRun_cons, seqBatches_cons, completedAll_cons]
    by_cases hw : st.working = ∅
    · rw [if_pos hw, if_pos hw, if_pos hw, Finset.union_empty]
      exact ⟨⟨Ep, h⟩, by simp, by simp, by simp⟩
    · rw [if_neg hw, if_neg hw, if_neg hw]
      rw [validTrace_cons, if_neg hw] at hval
      simp only [Bool.and_eq_true, List.all_eq_true, decide_eq_true_eq] at hval
      obtain ⟨⟨hcw, hcnd⟩, hval'⟩ := hval
      have hstep := MInv_step dir roots c h hcw hcnd
      obtain ⟨⟨Ep', hfin⟩, hEeq, hdisj', hpair'⟩ :=
        ih (C ∪ c.toFinset) (ESet dir roots C) (sequenceStep st c) hstep hval'
      have hsub : st.new ⊆ ESet dir roots C := by
        rw [h.2.2.2.2.2.2]
        exact Finset.sdiff_subset
      refine ⟨⟨Ep', ?_⟩, ?_, ?_, ?_⟩
      · rw [← Finset.union_assoc]
        exact hfin
      · rw [← Finset.union_assoc, hEeq]
        have hECsub : ESet dir roots C ⊆ ESet dir roots (C ∪ c.toFinset) :=
          ESet_mono dir roots Finset.subset_union_left
        have hnew' : (sequenceStep st c).new =
            ESet dir roots (C ∪ c.toFinset) \ ESet dir roots C :=
          hstep.2.2.2.2.2.2
        have hEC' : ESet dir roots (C ∪ c.toFinset) =
            ESet dir roots C ∪ (sequenceStep st c).new := by
          rw [hnew']
          ext w
          simp only [Finset.mem_union, Finset.mem_sdiff]
          constructor
          · intro hw'
            by_cases h2 : w ∈ ESet dir roots C
            · exact Or.inl h2
            · exact Or.inr ⟨hw', h2⟩
          · rintro (hw' | ⟨hw', _⟩)
            · exact hECsub hw'
            · exact hw'
        rw [hEC', List.foldr_cons]
        by_cases hw' : (sequenceStep st c).working = ∅
        · have hwork' : (sequenceStep st c).working =
              ESet dir roots (C ∪ c.toFinset) \ (C ∪ c.toFinset) :=
            hstep.2.2.2.2.2.1
          rw [hwork', Finset.sdiff_eq_empty_iff_subset] at hw'
          have hnew0 : (sequenceStep st c).new = ∅ := by
            rw [hnew', Finset.eq_empty_iff_forall_not_mem]
            intro w hw2
            have hw3 := Finset.mem_sdiff.mp hw2
            rcases Finset.mem_union.mp (hw' hw3.1) with hwC | hwc
            · exact hw3.2 (h.2.2.2.1 hwC)
            · have hmem := hcw w (List.mem_toFinset.mp hwc)
              rw [h.2.2.2.2.2.1] at hmem
              exact hw3.2 (Finset.mem_sdiff.mp hmem).1
          rw [hnew0]
          ext w
          simp only [Finset.mem_union, Finset.not_mem_empty, or_false]
          constructor
          · rintro (hw2 | hw2)
            · exact Or.inl hw2
            · exact Or.inr (Or.inr hw2)
          · rintro (hw2 | hw2 | hw2)
            · exact Or.inl hw2
            · exact Or.inl (hsub hw2)
            · exact Or.inr hw2
        · have hnsub := new_subset_batches (sequenceStep st c) cs' hw'
          ext w
          simp only [Finset.mem_union]
          constructor
          · rintro ((hw2 | hw2) | hw2)
            · exact Or.inl hw2
            · exact Or.inr (Or.inr (hnsub hw2))
            · exact Or.inr (Or.inr hw2)
          · rintro (hw2 | hw2 | hw2)
            · exact Or.inl (Or.inl hw2)
            · exact Or.inl (Or.inl (hsub hw2))
            · exact Or.inr hw2
      · intro b hb
        rcases List.mem_cons.mp hb with rfl | hb
        · rw [h.2.2.2.2.2.2]
          exact Finset.sdiff_disjoint
        · exact (hdisj' b hb).mono_right h.2.2.2.2.1
      · rw [List.pairwise_cons]
        constructor
        · intro b hb
          exact ((hdisj' b hb).mono_right hsub).symm
        · exact hpair'

theorem sequenceInit_minv (dir : V → List V) (roots : List V) :
    MInv dir roots ∅ ∅ (sequenceInit dir roots) := by
  obtain ⟨hhan, hDom, hWork, hTree, hInv⟩ := traverseAll_spec dir roots
  have hwe : (sequenceInit dir roots).working = ESet dir roots ∅ := by
    ext f
    rw [ESet, Finset.mem_filter, RSet, hhan f]
    show f ∈ (traverseAll dir roots).working ↔ _
    rw [hWork f]
    constructor
    · rintro ⟨h1, h2⟩
      rw [h2]
      exact ⟨h1, Finset.Subset.refl ∅⟩
    · rintro ⟨h1, h2⟩
      exact ⟨h1, Finset.subset_empty.mp h2⟩
  refine ⟨rfl, ?_, ?_, by simp, by simp, ?_, ?_⟩
  · intro z
    exact hInv z
  · intro f hf
    rw [Finset.sdiff_empty]
    exact hTree f hf
  · rw [Finset.sdiff_empty]
    exact hwe
  · rw [Finset.sdiff_empty]
    exact hwe

/-- A rank function certifies acyclicity of the dependency relation. -/
theorem acyclic_of_rank (dir : V → List V) (rank : V → Nat)
    (h : ∀ f, ∀ z ∈ dir f, rank z < rank f) :
    ∀ f, ¬ Relation.TransGen (rel dir) f f := by
  have hlt : ∀ a b, Relation.TransGen (rel dir) a b → rank a < rank b := by
    intro a b hab
    induction hab with
    | single h1 => exact h _ _ h1
    | tail _ h2 ih => exact lt_trans ih (h _ _ h2)
  intro f hf
  exact lt_irrefl _ (hlt f f hf)

/-- Claim C2: on a finite acyclic dependency graph, when the caller sends
every emitted factor back as completed exactly once (each consumed
completion is a duplicate-free batch of currently working factors, and all
emitted factors end up completed), the generator's working set empties — the
`while working` loop exits and the generator raises `StopIteration` — after
having emitted exactly the nodes of the traversed graph (the roots and their
transitive dependencies), each in exactly one batch. -/
theorem sequence_complete_terminates (dir : V → List V) (roots : List V)
    (cs : List (List V))
    (hacyc : ∀ f : V, ¬ Relation.TransGen (rel dir) f f)
    (hval : validTrace (sequenceInit dir roots) cs = true)
    (hsent : emittedAll (sequenceInit dir roots) cs ⊆
      completedAll (sequenceInit dir roots) cs) :
    (seqRun (sequenceInit dir roots) cs).working = ∅ ∧
    (∀ f, f ∈ emittedAll (sequenceInit dir roots) cs ↔ Reach dir roots f) ∧
    (seqBatches (sequenceInit dir roots) cs).Pairwise Disjoint := by
  obtain ⟨⟨Ep, hfin⟩, hEeq, _, hpair⟩ :=
    seqRun_spec dir roots cs ∅ ∅ (sequenceInit dir roots)
      (sequenceInit_minv dir roots) hval
  rw [Finset.empty_union] at hfin hEeq
  have hE0 : ESet dir roots ∅ ⊆ emittedAll (sequenceInit dir roots) cs := by
    by_cases hw : (sequenceInit dir roots).working = ∅
    · have hwe := (sequenceInit_minv dir roots).2.2.2.2.2.1
      rw [Finset.sdiff_empty] at hwe
      rw [← hwe, hw]
      exact Finset.empty_subset _
    · have hnew := (sequenceInit_minv dir roots).2.2.2.2.2.2
      rw [Finset.sdiff_empty] at hnew
      rw [← hnew]
      exact new_subset_batches (sequenceInit dir roots) cs hw
  have hEcaEq : ESet dir roots (completedAll (sequenceInit dir roots) cs) =
      emittedAll (sequenceInit dir roots) cs := by
    rw [hEeq]
    exact Finset.union_eq_right.mpr hE0
  have hCaE : completedAll (sequenceInit dir roots) cs ⊆
      ESet dir roots (completedAll (sequenceInit dir roots) cs) :=
    hfin.2.2.2.1
  have hEC : ESet dir roots (completedAll (sequenceInit dir roots) cs) ⊆
      completedAll (sequenceInit dir roots) cs := by
    rw [hEcaEq]
    exact hsent
  have hCeq : ESet dir roots (completedAll (sequenceInit dir roots) cs) =
      completedAll (sequenceInit dir roots) cs :=
    Finset.Subset.antisymm hEC hCaE
  have hwf : WellFounded (rel dir) := by
    have hirr : IsIrrefl V (Relation.TransGen (rel dir)) := ⟨hacyc⟩
    have htr : IsTrans V (Relation.TransGen (rel dir)) :=
      ⟨fun _ _ _ => Relation.TransGen.trans⟩
    exact Subrelation.wf (fun hr => Relation.TransGen.single hr)
      (Finite.wellFounded_of_trans_of_irrefl _)
  have hRclosed : ∀ f, f ∈ RSet dir roots → ∀ z ∈ dir f,
      z ∈ RSet dir roots := by
    intro f hf z hz
    obtain ⟨hhan, _, _, _, _⟩ := traverseAll_spec dir roots
    rw [RSet] at hf ⊢
    rw [hhan] at hf ⊢
    obtain ⟨r, hr, hRTG⟩ := hf
    exact ⟨r, hr, Relation.ReflTransGen.head hz hRTG⟩
  have hRE : ∀ f, f ∈ RSet dir roots →
      f ∈ ESet dir roots (completedAll (sequenceInit dir roots) cs) := by
    intro f
    refine @WellFounded.induction V (rel dir) hwf
      (fun y => y ∈ RSet dir roots →
        y ∈ ESet dir roots (completedAll (sequenceInit dir roots) cs)) f ?_
    intro x ihf hx
    rw [ESet, Finset.mem_filter]
    refine ⟨hx, ?_⟩
    intro w hwmem
    have hw' : w ∈ dir x := List.mem_toFinset.mp hwmem
    have hwE := ihf w hw' (hRclosed x hx w hw')
    rw [hCeq] at hwE
    exact hwE
  have hER : ESet dir roots (completedAll (sequenceInit dir roots) cs) =
      RSet dir roots := by
    apply Finset.Subset.antisymm
    · rw [ESet]
      exact Finset.filter_subset _ _
    · intro f hf
      exact hRE f hf
  refine ⟨?_, ?_, hpair⟩
  · rw [hfin.2.2.2.2.2.1, hCeq, Finset.sdiff_self]
  · intro f
    rw [← hEcaEq, hER]
    obtain ⟨hhan, _, _, _, _⟩ := traverseAll_spec dir roots
    rw [RSet]
    exact hhan f

/-- Witness for `sequence_complete_terminates` on `dir3` from root `0` with
the full completion schedule: the working set empties. -/
theorem sequence_complete_terminates_witness :
    (seqRun (sequenceInit dir3 [0]) [[2], [1], [0]]).working = ∅ :=
  (sequence_complete_terminates dir3 [0] [[2], [1], [0]]
    (acyclic_of_rank dir3
      (fun i => if i = 0 then 2 else if i = 1 then 1 else 0)
      (by decide))
    (by decide) (by decide)).1


end Graph

end Fault
